import Mathlib

/-!
# TV-Split-Optimizer: verification of the allocation engine

Shallow embedding of `src/services/calculationService.ts` (the allocation
engine of the TV-Split-Optimizer repository).  Machine numbers are embedded
as exact rationals; a JavaScript number that can be `NaN` or `null` is
embedded as `Option ℚ` (both `NaN` and `null` are falsy, both are dropped by
`JSON` round-trips, and the code only ever reads them through `|| 0`-style
coercions, so the two collapse to `none` without loss).  Spreadsheet parsing,
column lookup and name normalisation are external collaborators (spec §1);
rows are modelled after those steps, at the point where
`processFilesAndCalculate` reads the parsed cell values.
-/

namespace TVSplit

/-- Buy type of a channel row: `GRP` when the buying-audience GRP indicator
column holds a real value, `Min` (`Мин`) when it is blank or N/A. -/
inductive ChannelType
  | GRP
  | Min
deriving DecidableEq, Repr

/-- Exclusion/adjustment comments written by the engine.  The source stores
interpolated strings; we keep the interpolated quantity as a payload. -/
inductive Comment
  | lowShare (minSharePct : ℚ)
  | orbitalAdjusted (capPct : ℚ)
  | expensiveIndexTcpp
  | noTcppData
  | noDataOrZeroCpp
  | notChosenByUser
  | manualShare
  | zeroShare
  | notSelected
deriving DecidableEq, Repr

/-- One channel within one region for one split variant
(`ChannelData` of `types.ts`, as populated by `calculationService.ts`). -/
structure ChannelData where
  region : String
  channel : String
  tvrTa : Option ℚ
  salesTvr : Option ℚ
  cpp : Option ℚ
  aff : Option ℚ
  tcpp : Option ℚ
  ta : String
  sortOrder : ℤ
  type : ChannelType
  indexTcpp : Option ℚ
  selected : Bool
  weightedRating : Option ℚ
  share : Option ℚ
  trp : Option ℚ
  comment : Option Comment
deriving DecidableEq, Repr

/-- Per-region brief configuration (`RegionBrief` of `types.ts`). -/
structure RegionBrief where
  targetAudience : String
  minChannelShare : Option ℚ
  maxOrbitalShare : Option ℚ
  expensiveChannelCutoff : Option ℚ
deriving DecidableEq, Repr

/-- The brief: an ordered key/value object `regionBriefs`
(JS objects preserve insertion order of their string keys). -/
structure BriefData where
  regionBriefs : List (String × RegionBrief)
deriving DecidableEq, Repr

/-- `Object.keys(brief.regionBriefs)`. -/
def BriefData.regions (b : BriefData) : List String :=
  b.regionBriefs.map Prod.fst

/-- `brief.regionBriefs[r]` — property lookup on the brief object. -/
def BriefData.find (b : BriefData) (r : String) : Option RegionBrief :=
  (b.regionBriefs.find? (fun p => p.1 == r)).map Prod.snd

/-- JS `x || 0` on a number that may be `null`/`NaN`. -/
def orZero (x : Option ℚ) : ℚ := x.getD 0

/-- JS `x || 1` (used as `d.aff || 1`): `null`, `NaN` and `0` give 1. -/
def orOne (x : Option ℚ) : ℚ :=
  match x with
  | none => 1
  | some v => if v = 0 then 1 else v

/-- JS truthiness of a nullable number: `null`, `NaN` and `0` are falsy. -/
def isTruthy (x : Option ℚ) : Bool :=
  match x with
  | none => false
  | some v => v != 0

/-- Whether the first character list starts the second one. -/
def startsWithChars : List Char → List Char → Bool
  | [], _ => true
  | _ :: _, [] => false
  | p :: ps, c :: cs => p == c && startsWithChars ps cs

/-- Whether the first character list occurs inside the second one. -/
def containsChars (pat : List Char) : List Char → Bool
  | [] => startsWithChars pat []
  | c :: cs => startsWithChars pat (c :: cs) || containsChars pat cs

/-- JS `String.prototype.includes`: substring occurrence. -/
def jsIncludes (s pat : String) : Bool :=
  containsChars pat.data s.data

/-- A channel is treated as orbital when its display name carries the
`" - 0"` marker (`d.channel.includes(" - 0")`). -/
def isOrbitalName (s : String) : Bool := jsIncludes s " - 0"

/-- Custom blend weights for the constructor split (three percentages). -/
structure Weights where
  aff : ℚ
  tcpp : ℚ
  eff : ℚ
deriving DecidableEq, Repr

/-! ## Share optimizer (`optimizeSplit`, lines 353–468)

The iterative loop body is split into the per-region rating assignment and
share normalisation, the minimum-share floor pass, and (after the loop) the
orbital-cap pass, finalisation and sort.  Each piece mirrors the
corresponding statement block of the source. -/

/-- `data.filter(d => d.region === region && d.selected)`. -/
def selectedInRegion (l : List ChannelData) (r : String) : List ChannelData :=
  l.filter (fun d => d.region == r && d.selected)

/-- `selectedInRegion.reduce((sum, d) => sum + (d.tcpp || 0), 0) / selectedInRegion.length`. -/
def avgTcppOf (sel : List ChannelData) : ℚ :=
  (sel.map (fun d => orZero d.tcpp)).sum / sel.length

/-- The `switch (weightingLogic)` of lines 398–404, producing the new
`weightedRating` of one selected channel. -/
def weightedRatingFor (logic : String) (avgTcpp : ℚ) (d : ChannelData) : Option ℚ :=
  if logic == "Natural" then d.tvrTa
  else if logic == "Affinity" then some (orZero d.tvrTa * orOne d.aff)
  else if logic == "Efficiency" then
    some (match d.cpp with
          | some c => if 0 < c then orZero d.tvrTa / c else 0
          | none => 0)
  else if logic == "TCPP" then
    some (match d.tcpp with
          | some t => if 0 < avgTcpp ∧ 0 < t then orZero d.tvrTa / (t / avgTcpp) else 0
          | none => 0)
  else some (orZero d.tvrTa)

/-- One element of the `wr` array precomputed for the Custom blend
(lines 377–382): raw component scores keyed by channel name. -/
structure WrEntry where
  ch : String
  aff : ℚ
  tcpp : ℚ
  eff : ℚ
deriving DecidableEq, Repr

/-- Lines 377–382: the raw component scores of one selected channel. -/
def customWrEntry (avgTcpp : ℚ) (d : ChannelData) : WrEntry :=
  { ch := d.channel
    aff := orZero d.tvrTa * orOne d.aff
    tcpp := match d.tcpp with
            | some t => if 0 < avgTcpp ∧ 0 < t then orZero d.tvrTa / (t / avgTcpp) else 0
            | none => 0
    eff := match d.cpp with
           | some c => if 0 < c then orZero d.tvrTa / c else 0
           | none => 0 }

/-- Lines 387–394: blended rating of one channel from the normalised
component scores (`wr.find(w => w.ch === d.channel)`; when the entry is
missing the source `return`s, leaving the old rating). -/
def customRating (ws : Weights) (wrList : List WrEntry) (taff ttcpp teff : ℚ)
    (d : ChannelData) : Option ℚ :=
  match wrList.find? (fun e => e.ch == d.channel) with
  | none => d.weightedRating
  | some e =>
    let na := if 0 < taff then e.aff / taff else 0
    let nt := if 0 < ttcpp then e.tcpp / ttcpp else 0
    let ne := if 0 < teff then e.eff / teff else 0
    some (ws.aff / 100 * na + ws.tcpp / 100 * nt + ws.eff / 100 * ne)

/-- Write a new `weightedRating` (given by `f`) into the selected channels
of region `r`, leaving every other record untouched. -/
def updWR (r : String) (f : ChannelData → Option ℚ) (d : ChannelData) : ChannelData :=
  if d.region == r && d.selected then { d with weightedRating := f d } else d

/-- Lines 375–406: assign `weightedRating` to every selected channel of the
region (Custom blend or the plain switch). -/
def assignRatings (logic : String) (w : Option Weights) (r : String)
    (l : List ChannelData) : List ChannelData :=
  let sel := selectedInRegion l r
  let avgTcpp := avgTcppOf sel
  match w with
  | some ws =>
    if logic == "Custom" then
      let wrList := sel.map (customWrEntry avgTcpp)
      let taff := (wrList.map (·.aff)).sum
      let ttcpp := (wrList.map (·.tcpp)).sum
      let teff := (wrList.map (·.eff)).sum
      l.map (updWR r (customRating ws wrList taff ttcpp teff))
    else
      l.map (updWR r (weightedRatingFor logic avgTcpp))
  | none =>
    l.map (updWR r (weightedRatingFor logic avgTcpp))

/-- `selectedInRegion.reduce((sum, d) => sum + (d.weightedRating || 0), 0)` (line 408). -/
def normTotal (r : String) (l : List ChannelData) : ℚ :=
  ((selectedInRegion l r).map (fun d => orZero d.weightedRating)).sum

/-- The per-record update of lines 410–413. -/
def normFun (r : String) (total : ℚ) (d : ChannelData) : ChannelData :=
  if d.region == r then
    if d.selected then { d with share := some (orZero d.weightedRating / total) }
    else { d with share := some 0 }
  else d

/-- Lines 408–414: divide by the total weighted rating only when it is
strictly positive; otherwise the region keeps its previous shares. -/
def normalizeShares (r : String) (l : List ChannelData) : List ChannelData :=
  if 0 < normTotal r l then l.map (normFun r (normTotal r l)) else l

/-- One iteration of the `for (const region of regions)` body
(lines 369–415): skip the region when it has no selected channel, otherwise
assign ratings and normalise shares. -/
def regionPass (logic : String) (w : Option Weights)
    (l : List ChannelData) (r : String) : List ChannelData :=
  if (selectedInRegion l r).isEmpty then l
  else normalizeShares r (assignRatings logic w r l)

/-- The region brief's minimum share as a fraction:
`(regionBrief.minChannelShare ?? 2) / 100`. -/
def minShareOf (rb : RegionBrief) : ℚ := rb.minChannelShare.getD 2 / 100

/-- The test of line 423: a selected channel whose (non-null) share fell
below the region's floor. -/
def floorViolation (brief : BriefData) (d : ChannelData) : Bool :=
  match brief.find d.region with
  | none => false
  | some rb =>
    d.selected &&
      (match d.share with
       | some s => decide (s < minShareOf rb)
       | none => false)

/-- The per-record update of lines 418–428: deselect floor violators. -/
def floorFun (brief : BriefData) (d : ChannelData) : ChannelData :=
  if floorViolation brief d then
    { d with selected := false
             comment := some (.lowShare (minShareOf ((brief.find d.region).getD
               ⟨"", none, none, none⟩) * 100)) }
  else d

/-- Lines 417–429: the minimum-share constraint pass. -/
def floorPass (brief : BriefData) (l : List ChannelData) : List ChannelData :=
  l.map (floorFun brief)

/-- The data after one full `do {...}` iteration of lines 364–430:
every region's rating/normalisation step, then (with limits) the floor pass. -/
def optPassData (brief : BriefData) (logic : String) (w : Option Weights)
    (applyLimits : Bool) (l : List ChannelData) : List ChannelData :=
  let l2 := brief.regions.foldl (regionPass logic w) l
  if applyLimits then floorPass brief l2 else l2

/-- The `changesMade` flag of that iteration: some channel was deselected
by the floor pass (only possible when limits are applied). -/
def optPassChanged (brief : BriefData) (logic : String) (w : Option Weights)
    (applyLimits : Bool) (l : List ChannelData) : Bool :=
  applyLimits && (brief.regions.foldl (regionPass logic w) l).any (floorViolation brief)

/-- The `do {...} while (changesMade)` loop with its `iterationCount > 20`
safety valve (lines 362–430): the body runs, and the loop repeats while the
pass deselected something, for at most `fuel` passes (the source allows 20). -/
def optLoop (brief : BriefData) (logic : String) (w : Option Weights)
    (applyLimits : Bool) : Nat → List ChannelData → List ChannelData
  | 0, l => l
  | fuel + 1, l =>
    if optPassChanged brief logic w applyLimits l then
      optLoop brief logic w applyLimits fuel (optPassData brief logic w applyLimits l)
    else optPassData brief logic w applyLimits l

/-- Sum of `(d.share || 0)` over the selected orbital channels of a region
(line 439). -/
def sumSelOrbital (r : String) (l : List ChannelData) : ℚ :=
  ((l.filter (fun d => d.region == r && d.selected && isOrbitalName d.channel)).map
    (fun d => orZero d.share)).sum

/-- Sum of `(d.share || 0)` over the selected non-orbital channels of a
region (line 451). -/
def sumSelNetwork (r : String) (l : List ChannelData) : ℚ :=
  ((l.filter (fun d => d.region == r && d.selected && !isOrbitalName d.channel)).map
    (fun d => orZero d.share)).sum

/-- The per-record update of lines 446–454: scale a selected orbital
channel's share by the reduction factor `rf` and note the adjustment; give a
selected network channel its proportional part of the freed share `str`
(only when the network total is positive). -/
def capAdjustRecord (r : String) (capPct rf str totalNet : ℚ) (d : ChannelData) :
    ChannelData :=
  if d.region == r && d.selected && isOrbitalName d.channel then
    { d with share := some (orZero d.share * rf)
             comment := some (.orbitalAdjusted capPct) }
  else if d.region == r && d.selected && !isOrbitalName d.channel &&
      decide (0 < totalNet) then
    { d with share := some (orZero d.share + orZero d.share / totalNet * str) }
  else d

/-- The region's configured orbital cap, when its brief exists and sets one
(`!regionBrief || regionBrief.maxOrbitalShare === null` skips the region). -/
def capOf (brief : BriefData) (r : String) : Option ℚ :=
  (brief.find r).bind (·.maxOrbitalShare)

/-- Lines 433–456: the orbital-cap pass for one region.  When the configured
cap is exceeded, orbital shares are scaled by `maxShare / totalOrbitalShare`
and the freed share is spread over the selected network channels in
proportion to their shares (only when their total is positive). -/
def orbitalCapRegion (brief : BriefData) (l : List ChannelData) (r : String) :
    List ChannelData :=
  match capOf brief r with
  | none => l
  | some capPct =>
    let totalOrb := sumSelOrbital r l
    let maxShare := capPct / 100
    if maxShare < totalOrb then
      l.map (capAdjustRecord r capPct (maxShare / totalOrb) (totalOrb - maxShare)
        (sumSelNetwork r l))
    else l

/-- Lines 432–457: the orbital-cap pass over every region of the brief. -/
def orbitalCapPass (brief : BriefData) (l : List ChannelData) : List ChannelData :=
  brief.regions.foldl (orbitalCapRegion brief) l

/-- Lines 459–465: finalisation of one record. -/
def finalizeRecord (d : ChannelData) : ChannelData :=
  if d.selected then { d with trp := some (orZero d.share * 1000) }
  else { d with share := some 0, trp := some 0 }

/-- Lines 459–465: finalisation of the whole list. -/
def finalizePass (l : List ChannelData) : List ChannelData :=
  l.map finalizeRecord

/-- The sort comparator of line 467:
`(a.sortOrder - b.sortOrder) || ((b.share || 0) - (a.share || 0))`,
as the induced non-strict order used by a stable sort. -/
def splitLE (a b : ChannelData) : Bool :=
  a.sortOrder < b.sortOrder ||
    (a.sortOrder == b.sortOrder && decide (orZero b.share ≤ orZero a.share))

/-- Line 467: stable sort by region presentation order, then descending
share (JS `Array.prototype.sort` is stable). -/
def sortRecords (l : List ChannelData) : List ChannelData :=
  l.mergeSort splitLE

/-- `optimizeSplit` (lines 353–468): the iterative share optimisation, the
orbital-cap pass (with limits), finalisation and the final sort. -/
def optimizeSplit (data : List ChannelData) (brief : BriefData)
    (weightingLogic : String) (applyLimits : Bool) (weights : Option Weights) :
    List ChannelData :=
  let looped := optLoop brief weightingLogic weights applyLimits 20 data
  let capped := if applyLimits then orbitalCapPass brief looped else looped
  sortRecords (finalizePass capped)

/-! ## Selection policies and split generators (lines 473–584) -/

/-- JS `list.slice(0, k)` where `k` may be a negative integer
(`Math.ceil` of a negative cutoff): a negative end counts from the end. -/
def jsSliceTo (k : ℤ) (l : List α) : List α :=
  if 0 ≤ k then l.take k.toNat else l.take (l.length - (-k).toNat)

/-- The descending `Index TCPP` comparator of line 488
(`(a, b) => b.indexTcpp! - a.indexTcpp!`) as the non-strict order used by a
stable sort. -/
def idxDescLE (a b : ChannelData) : Bool :=
  decide (orZero b.indexTcpp ≤ orZero a.indexTcpp)

/-- The per-record update of lines 495–505: select a channel with a cost
index unless its name was marked too expensive; deselect channels without a
cost index. -/
def cutoffMark (r : String) (channelsToExclude : List String) (d : ChannelData) :
    ChannelData :=
  if d.region == r then
    match d.indexTcpp with
    | some _ =>
      if channelsToExclude.contains d.channel then
        { d with selected := false, comment := some .expensiveIndexTcpp }
      else { d with selected := true }
    | none => { d with selected := false, comment := some .noTcppData }
  else d

/-- Lines 483–506: the cutoff selection for one region — rank the channels
that have an `indexTcpp` descending, exclude (by channel name) the top
`ceil(N * cutoff% / 100)`, deselect channels without an index outright. -/
def cutoffSelectRegion (brief : BriefData) (data : List ChannelData) (r : String) :
    List ChannelData :=
  let rb := brief.find r
  let regionChannels := data.filter (fun d => d.region == r && d.indexTcpp.isSome)
  if regionChannels.isEmpty then data
  else
    let sorted := regionChannels.mergeSort idxDescLE
    let cutoffValue := (rb.bind (·.expensiveChannelCutoff)).getD 20
    let channelsToCut : ℤ := ⌈(regionChannels.length : ℚ) * (cutoffValue / 100)⌉
    let channelsToExclude := (jsSliceTo channelsToCut sorted).map (·.channel)
    data.map (cutoffMark r channelsToExclude)

/-- Lines 508–516: the Natural selection — keep every channel with strictly
positive rating and strictly positive price. -/
def naturalSelect (data : List ChannelData) : List ChannelData :=
  data.map (fun d =>
    if (match d.tvrTa with | some v => decide (0 < v) && v != 0 | none => false) &&
       (match d.cpp with | some c => decide (0 < c) | none => false) then
      { d with selected := true }
    else { d with selected := false, comment := some .noDataOrZeroCpp })

/-- `generateSingleSplit` (lines 473–520): cutoff selection (non-Natural) or
Natural selection, then `optimizeSplit` without custom weights. -/
def generateSingleSplit (data : List ChannelData) (brief : BriefData)
    (weightingLogic : String) (applyLimits : Bool) : List ChannelData :=
  let selectedData :=
    if weightingLogic != "Natural" then
      brief.regions.foldl (cutoffSelectRegion brief) data
    else naturalSelect data
  optimizeSplit selectedData brief weightingLogic applyLimits none

/-- The structural copy performed by `JSON.parse(JSON.stringify(...))` on a
channel record.  On the embedded records this is the identity: every field
is a rational, a string, a boolean or `null`, and a JavaScript `NaN`
(serialised to `null`) is already embedded as `none`. -/
def copyChannelData (d : ChannelData) : ChannelData :=
  { region := d.region, channel := d.channel, tvrTa := d.tvrTa
    salesTvr := d.salesTvr, cpp := d.cpp, aff := d.aff, tcpp := d.tcpp
    ta := d.ta, sortOrder := d.sortOrder, type := d.type
    indexTcpp := d.indexTcpp, selected := d.selected
    weightedRating := d.weightedRating, share := d.share, trp := d.trp
    comment := d.comment }

/-- `generateConstructorSplit` (lines 525–547): deep-copy the base snapshot,
select the user's allow-list restricted to channels with a positive TCPP,
then optimise with limits and optional custom weights. -/
def generateConstructorSplit (allChannels : List ChannelData) (brief : BriefData)
    (selectedChannelNames : List String) (weightingLogic : String)
    (weights : Option Weights) : List ChannelData :=
  let data := allChannels.map copyChannelData
  let data2 := data.map (fun d =>
    if (match d.tcpp with | some t => t != 0 && decide (0 < t) | none => false) then
      if selectedChannelNames.contains d.channel then { d with selected := true }
      else { d with selected := false, comment := some .notChosenByUser }
    else { d with selected := false, comment := some .noTcppData })
  optimizeSplit data2 brief weightingLogic true weights

/-- The per-record update of lines 560–581: in the manual region, a channel
with a positive supplied percentage is selected with exactly that share and
`share × 1000` points; any other channel of the region is cleared; records
of every other region are reset with a cleared comment. -/
def manualMark (region : Option String) (shares : String → Option ℚ)
    (d : ChannelData) : ChannelData :=
  if region == some d.region then
    match shares d.channel with
    | some p =>
      if 0 < p then
        { d with selected := true, share := some (p / 100)
                 trp := some (p / 100 * 1000), comment := some .manualShare }
      else
        { d with selected := false, share := some 0, trp := some 0
                 comment := some .zeroShare }
    | none =>
      { d with selected := false, share := some 0, trp := some 0
               comment := some .notSelected }
  else
    { d with selected := false, share := some 0, trp := some 0, comment := none }

/-- `generateManualSharesSplit` (lines 552–584): deep-copy the base
snapshot, write the supplied shares into the first brief region's channels,
reset every other region's records, and sort.  The share map is modelled as
a lookup function (`Map.get`). -/
def generateManualSharesSplit (allChannels : List ChannelData) (brief : BriefData)
    (shares : String → Option ℚ) : List ChannelData :=
  let data := allChannels.map copyChannelData
  let region := brief.regions.head?
  sortRecords (data.map (manualMark region shares))

/-! ## Base snapshot construction (`processFilesAndCalculate`, lines 211–347)

Spreadsheet reading, header validation and name normalisation are external
collaborators (spec §1); an `InputRow` carries the parsed cell values of one
ratings row at the point where the loop of lines 258–315 reads them, with
the price (`cppMap` lookup) already resolved. -/

/-- One parsed ratings-table row (with its price lookup resolved). -/
structure InputRow where
  /-- The brief key this row's normalised region matched (rows whose region
  is absent from the brief are skipped by the caller's filter). -/
  briefRegion : String
  /-- The raw channel cell (`row[channelColIdx]`). -/
  rawChannel : String
  /-- Whether the distribution-block cell contains the orbital marker. -/
  orbitalBlock : Bool
  /-- The trimmed buying-audience GRP indicator cell. -/
  grpBuying : String
  avgTvrTa : Option ℚ
  totalTvrTa : Option ℚ
  salesTvr : Option ℚ
  /-- `cppMap.get(region)?.get(channelKey) ?? null`. -/
  cpp : Option ℚ
deriving DecidableEq, Repr

/-- Line 295: `Мин` when the GRP indicator is blank or N/A, else `GRP`. -/
def channelTypeOf (grpBuying : String) : ChannelType :=
  if grpBuying == "N/A" || grpBuying == "N\\A" || grpBuying == "" then .Min else .GRP

/-- The characters of a string cell up to the first `(`
(JS `String(x).split('(')[0]`). -/
def takeUntilParen : List Char → List Char
  | [] => []
  | c :: cs => if c == '(' then [] else c :: takeUntilParen cs

/-- JS `String.prototype.trim`: strip whitespace at both ends. -/
def trimChars (l : List Char) : List Char :=
  ((l.dropWhile Char.isWhitespace).reverse.dropWhile Char.isWhitespace).reverse

/-- `String(row[channelColIdx]).split('(')[0].trim()` (line 274). -/
def baseNameOf (s : String) : String :=
  ⟨trimChars (takeUntilParen s.data)⟩

/-- Lines 274–314: build one base-snapshot record from a row. -/
def buildRecord (brief : BriefData) (row : InputRow) : ChannelData :=
  let baseChannelName := baseNameOf row.rawChannel
  let channelForDisplay :=
    if row.orbitalBlock then baseChannelName ++ " - 0" else baseChannelName
  let ctype := channelTypeOf row.grpBuying
  let aff : Option ℚ :=
    match row.totalTvrTa, row.salesTvr with
    | some t, some s => if 0 < t ∧ 0 < s then some (t / s) else none
    | _, _ => none
  let tcpp : Option ℚ :=
    match ctype, row.cpp, aff with
    | .GRP, some c, some a => if c ≠ 0 ∧ a ≠ 0 ∧ 0 < a then some (c / a) else none
    | .Min, some c, _ =>
      match row.avgTvrTa with
      | some v => if c ≠ 0 ∧ 0 < v then some (c / 3 / v) else none
      | none => none
    | _, _, _ => none
  let recalculatedSalesTvr : Option ℚ :=
    match aff with
    | some a =>
      if a ≠ 0 ∧ 0 < a then
        match row.avgTvrTa with
        | some v => some (v / a)
        | none => none
      else none
    | none => none
  { region := row.briefRegion, channel := channelForDisplay
    tvrTa := row.avgTvrTa, salesTvr := recalculatedSalesTvr, cpp := row.cpp
    aff := aff, tcpp := tcpp
    ta := ((brief.find row.briefRegion).map (·.targetAudience)).getD ""
    sortOrder := ((brief.regions.indexOf? row.briefRegion).map
      (fun i => (i : ℤ) + 1)).getD 99
    type := ctype, indexTcpp := none, selected := false
    weightedRating := none, share := none, trp := none, comment := none }

/-- Lines 258–315: the row loop — keep rows whose region is a brief key and
whose raw channel cell is non-empty and free of `/`. -/
def buildInitialData (brief : BriefData) (rows : List InputRow) : List ChannelData :=
  (rows.filter (fun row =>
    brief.regions.contains row.briefRegion &&
    row.rawChannel != "" && !jsIncludes row.rawChannel "/")).map (buildRecord brief)

/-- `Math.max(...)` over a non-empty list (the empty case is unreachable in
the source and maps to 0). -/
def listMax : List ℚ → ℚ
  | [] => 0
  | [x] => x
  | x :: y :: t => max x (listMax (y :: t))

/-- The per-record update of lines 322–327: write `tcpp / maxTcpp` into
`indexTcpp` when this record belongs to the region, has a `tcpp`, and the
region's maximum is positive. -/
def idxMark (r : String) (maxTcpp : ℚ) (d : ChannelData) : ChannelData :=
  if d.region == r && d.tcpp.isSome && decide (0 < maxTcpp) then
    { d with indexTcpp := some (orZero d.tcpp / maxTcpp) }
  else d

/-- One region's iteration of lines 318–328. -/
def indexRegionStep (acc : List ChannelData) (r : String) : List ChannelData :=
  let regionChannels := acc.filter (fun d => d.region == r && d.tcpp.isSome)
  if 0 < regionChannels.length then
    acc.map (idxMark r (listMax (regionChannels.map (fun d => orZero d.tcpp))))
  else acc

/-- Lines 317–328: per region, set `indexTcpp = tcpp / max(tcpp)` for every
record with a defined `tcpp`, provided the region's maximum is positive. -/
def computeIndexTcpp (regions : List String) (data : List ChannelData) :
    List ChannelData :=
  regions.foldl indexRegionStep data

/-- The four systematic variants (lines 331–336): name, weighting logic,
and whether limits are applied. -/
def splitConfigs : List (String × String × Bool) :=
  [("Сплит (TCPP)", "TCPP", true),
   ("Сплит (Affinity)", "Affinity", true),
   ("Сплит (Эффективность)", "Efficiency", true),
   ("Сплит (Натуральный)", "Natural", false)]

/-- The results object (summaries are a derived, read-only rollup and are
not needed by the verified claims). -/
structure CalculationResults where
  splits : List (String × List ChannelData)
  initialData : List ChannelData
deriving DecidableEq, Repr

/-- `processFilesAndCalculate` (lines 211–347) from the parsed rows on:
build the base snapshot, compute the relative cost index, and generate the
four systematic splits, each from a deep copy of the snapshot. -/
def processFilesAndCalculate (rows : List InputRow) (brief : BriefData) :
    CalculationResults :=
  let initialData := computeIndexTcpp brief.regions (buildInitialData brief rows)
  { splits := splitConfigs.map (fun c =>
      (c.1, generateSingleSplit (initialData.map copyChannelData) brief c.2.1 c.2.2))
    initialData := initialData }

/-- Lookup of one split variant's records by name. -/
def lookupSplit (res : CalculationResults) (name : String) :
    Option (List ChannelData) :=
  (res.splits.find? (fun p => p.1 == name)).map Prod.snd

/-! ## The results screen's copy-on-write update (`ResultsStep`)

`updateResultsWithNewSplit` deep-copies the previous results object and
replaces one named variant; the two ad hoc handlers call it with the output
of `generateConstructorSplit` / `generateManualSharesSplit` computed from
the (unmutated) base snapshot. -/

/-- JS object property assignment `obj[k] = v`: replace in place if the key
exists, else append (string keys keep insertion order). -/
def upsert (l : List (String × List ChannelData)) (k : String)
    (v : List ChannelData) : List (String × List ChannelData) :=
  if (l.find? (fun p => p.1 == k)).isSome then
    l.map (fun p => if p.1 == k then (k, v) else p)
  else l ++ [(k, v)]

/-- `setLocalResults` body: `JSON.parse(JSON.stringify(prevResults))`, then
`newResults.splits[splitName] = splitData`. -/
def updateResultsWithNewSplit (res : CalculationResults) (name : String)
    (splitData : List ChannelData) : CalculationResults :=
  { splits := upsert (res.splits.map (fun p => (p.1, p.2.map copyChannelData)))
      name splitData
    initialData := res.initialData.map copyChannelData }

/-- `handleCalculateConstructorSplit`: recompute the «Конструктор» variant. -/
def recomputeConstructor (res : CalculationResults) (brief : BriefData)
    (names : List String) (logic : String) (w : Option Weights) :
    CalculationResults :=
  updateResultsWithNewSplit res "Конструктор"
    (generateConstructorSplit res.initialData brief names logic w)

/-- `handleCalculateManualSharesSplit`: recompute the «Ручные доли» variant. -/
def recomputeManualShares (res : CalculationResults) (brief : BriefData)
    (shares : String → Option ℚ) : CalculationResults :=
  updateResultsWithNewSplit res "Ручные доли"
    (generateManualSharesSplit res.initialData brief shares)

/-! ## Derived quantities used in the claims -/

/-- Σ `(share || 0)` over the selected records of one region. -/
def sumSelShares (r : String) (l : List ChannelData) : ℚ :=
  ((l.filter (fun d => d.region == r && d.selected)).map (fun d => orZero d.share)).sum

/-- A record used as a concrete starting point in examples. -/
def baseRec : ChannelData :=
  { region := "", channel := "", tvrTa := none, salesTvr := none, cpp := none
    aff := none, tcpp := none, ta := "", sortOrder := 1, type := .Min
    indexTcpp := none, selected := false, weightedRating := none, share := none
    trp := none, comment := none }

/-! ## General lemmas -/

theorem copyChannelData_eq (d : ChannelData) : copyChannelData d = d := rfl

theorem map_copyChannelData (l : List ChannelData) :
    l.map copyChannelData = l := by
  rw [show copyChannelData = id from funext copyChannelData_eq, List.map_id]

theorem sortRecords_perm (l : List ChannelData) : (sortRecords l).Perm l :=
  List.mergeSort_perm l splitLE

theorem mem_sortRecords {d : ChannelData} {l : List ChannelData} :
    d ∈ sortRecords l ↔ d ∈ l :=
  (sortRecords_perm l).mem_iff

theorem sumSelShares_of_perm {l₁ l₂ : List ChannelData} (r : String)
    (h : l₁.Perm l₂) : sumSelShares r l₁ = sumSelShares r l₂ :=
  ((h.filter _).map _).sum_eq

/-- If a map leaves every element satisfying `p` fixed and does not change
`p`-membership, it leaves the `p`-filtered sublist unchanged. -/
theorem filter_map_eq_filter {p : ChannelData → Bool}
    {f : ChannelData → ChannelData} (h1 : ∀ d, p (f d) = p d)
    (h2 : ∀ d, p d = true → f d = d) (l : List ChannelData) :
    (l.map f).filter p = l.filter p := by
  rw [List.filter_map]
  have hpf : (p ∘ f) = p := funext h1
  rw [hpf]
  exact (List.map_congr_left (fun d hd => h2 d (List.of_mem_filter hd))).trans
    (List.map_id' _)

/-- A list equal to a map of itself consists of fixed points of the map. -/
theorem eq_of_map_self {f : ChannelData → ChannelData} :
    ∀ {l : List ChannelData}, l.map f = l → ∀ d ∈ l, f d = d := by
  intro l
  induction l with
  | nil => intro _ d hd; cases hd
  | cons a t ih =>
    intro h d hd
    rw [List.map_cons, List.cons_eq_cons] at h
    rcases List.mem_cons.mp hd with hd | hd
    · exact hd ▸ h.1
    · exact ih h.2 d hd

/-! ### Finalisation lemmas -/

theorem finalizeRecord_selected (d : ChannelData) :
    (finalizeRecord d).selected = d.selected := by
  unfold finalizeRecord; split <;> rfl

theorem finalizeRecord_region (d : ChannelData) :
    (finalizeRecord d).region = d.region := by
  unfold finalizeRecord; split <;> rfl

theorem finalizeRecord_share_of_selected {d : ChannelData}
    (h : d.selected = true) : (finalizeRecord d).share = d.share := by
  unfold finalizeRecord; simp [h]

theorem finalizeRecord_of_not_selected {d : ChannelData}
    (h : d.selected = false) :
    (finalizeRecord d).share = some 0 ∧ (finalizeRecord d).trp = some 0 := by
  unfold finalizeRecord; simp [h]

theorem sumSelShares_finalizePass (r : String) (l : List ChannelData) :
    sumSelShares r (finalizePass l) = sumSelShares r l := by
  unfold sumSelShares finalizePass
  rw [List.filter_map, List.map_map]
  have hp : ((fun d => d.region == r && d.selected) ∘ finalizeRecord) =
      (fun d => d.region == r && d.selected) := by
    funext d
    simp only [Function.comp_apply, finalizeRecord_region, finalizeRecord_selected]
  rw [hp]
  refine congrArg List.sum (List.map_congr_left fun d hd => ?_)
  have hsel : d.selected = true := by
    have hmem := List.of_mem_filter hd
    exact (Bool.and_eq_true _ _ ▸ hmem).2
  simp only [Function.comp_apply, finalizeRecord_share_of_selected hsel]

/-! ### Loop lemmas -/

theorem optLoop_iterate (brief : BriefData) (logic : String) (w : Option Weights)
    (al : Bool) : ∀ (fuel : Nat) (l : List ChannelData),
    ∃ n, n ≤ fuel ∧ (fuel ≠ 0 → 1 ≤ n) ∧
      optLoop brief logic w al fuel l = (optPassData brief logic w al)^[n] l := by
  intro fuel
  induction fuel with
  | zero => intro l; exact ⟨0, le_rfl, fun h => absurd rfl h, rfl⟩
  | succ fuel ih =>
    intro l
    by_cases hch : optPassChanged brief logic w al l = true
    · rcases ih (optPassData brief logic w al l) with ⟨n, hn, _, heq⟩
      refine ⟨n + 1, Nat.succ_le_succ hn, fun _ => Nat.le_add_left 1 n, ?_⟩
      rw [optLoop, if_pos hch, heq, Function.iterate_succ_apply]
    · refine ⟨1, Nat.succ_le_succ (Nat.zero_le _), fun _ => le_rfl, ?_⟩
      rw [optLoop, if_neg hch, Function.iterate_one]

theorem optLoop_of_unchanged (brief : BriefData) (logic : String)
    (w : Option Weights) (al : Bool) (fuel : Nat) (l : List ChannelData)
    (h : optPassChanged brief logic w al l = false) :
    optLoop brief logic w al (fuel + 1) l = optPassData brief logic w al l := by
  rw [optLoop, if_neg (by rw [h]; exact Bool.false_ne_true)]

/-- The loop's result is always the output of a completed pass. -/
theorem optLoop_is_pass_output (brief : BriefData) (logic : String)
    (w : Option Weights) (al : Bool) : ∀ (fuel : Nat) (l : List ChannelData),
    ∃ l₀, optLoop brief logic w al (fuel + 1) l = optPassData brief logic w al l₀ := by
  intro fuel
  induction fuel with
  | zero =>
    intro l
    by_cases hch : optPassChanged brief logic w al l = true
    · exact ⟨l, by rw [optLoop, if_pos hch]; rfl⟩
    · exact ⟨l, by rw [optLoop, if_neg hch]⟩
  | succ fuel ih =>
    intro l
    by_cases hch : optPassChanged brief logic w al l = true
    · rcases ih (optPassData brief logic w al l) with ⟨l₀, heq⟩
      exact ⟨l₀, by rw [optLoop, if_pos hch]; exact heq⟩
    · exact ⟨l, by rw [optLoop, if_neg hch]⟩

/-- C7: the share-optimisation loop always terminates — its result is some
`n`-fold iterate of the pass body with `1 ≤ n ≤ 20` (the source's
`iterationCount > 20` guard allows at most 20 passes), and whenever a pass
deselects no channel (`changesMade` stays false) the loop stops with that
pass's result. -/
theorem claim_C7 (brief : BriefData) (logic : String) (w : Option Weights)
    (al : Bool) (data : List ChannelData) :
    (∃ n, 1 ≤ n ∧ n ≤ 20 ∧
      optLoop brief logic w al 20 data = (optPassData brief logic w al)^[n] data) ∧
    (∀ (fuel : Nat) (l : List ChannelData),
      optPassChanged brief logic w al l = false →
      optLoop brief logic w al (fuel + 1) l = optPassData brief logic w al l) := by
  constructor
  · rcases optLoop_iterate brief logic w al 20 data with ⟨n, hn, h1, heq⟩
    exact ⟨n, h1 (by norm_num), hn, heq⟩
  · exact fun fuel l h => optLoop_of_unchanged brief logic w al fuel l h

/-- C7 witness: the bound and the early stop evaluated on a concrete input. -/
theorem claim_C7_witness :
    ∃ n, 1 ≤ n ∧ n ≤ 20 ∧
      optLoop ⟨[]⟩ "Natural" none false 20 [baseRec] =
        (optPassData ⟨[]⟩ "Natural" none false)^[n] [baseRec] :=
  (claim_C7 ⟨[]⟩ "Natural" none false [baseRec]).1

/-! ### Manual-shares split (C10) -/

theorem manualMark_region (reg : Option String) (sh : String → Option ℚ)
    (d : ChannelData) : (manualMark reg sh d).region = d.region := by
  unfold manualMark
  repeat' split
  all_goals rfl

theorem manualMark_channel (reg : Option String) (sh : String → Option ℚ)
    (d : ChannelData) : (manualMark reg sh d).channel = d.channel := by
  unfold manualMark
  repeat' split
  all_goals rfl

/-- C10: the manual split applies the supplied name→percentage map only to
the first brief region: a mapped channel of that region with a positive
percentage is selected with exactly that share and `share × 1000` points,
every other channel of that region is cleared, and every record of any
other region is reset with a cleared comment; the result is a permutation
of the per-record rewrite of the input list (nothing else changes). -/
theorem claim_C10 (allChannels : List ChannelData) (brief : BriefData)
    (shares : String → Option ℚ) (r0 : String) (rest : List String)
    (h : brief.regions = r0 :: rest) :
    (generateManualSharesSplit allChannels brief shares).Perm
      (allChannels.map (manualMark (some r0) shares)) ∧
    ∀ d ∈ generateManualSharesSplit allChannels brief shares,
      (d.region = r0 →
        (∀ p, shares d.channel = some p → 0 < p →
          d.selected = true ∧ d.share = some (p / 100) ∧
          d.trp = some (p / 100 * 1000)) ∧
        (∀ p, shares d.channel = some p → ¬ 0 < p →
          d.selected = false ∧ d.share = some 0 ∧ d.trp = some 0) ∧
        (shares d.channel = none →
          d.selected = false ∧ d.share = some 0 ∧ d.trp = some 0)) ∧
      (d.region ≠ r0 →
        d.selected = false ∧ d.share = some 0 ∧ d.trp = some 0 ∧
          d.comment = none) := by
  have hout : generateManualSharesSplit allChannels brief shares =
      sortRecords (allChannels.map (manualMark (some r0) shares)) := by
    unfold generateManualSharesSplit
    rw [map_copyChannelData, h]
    rfl
  rw [hout]
  refine ⟨sortRecords_perm _, fun d hd => ?_⟩
  rcases List.mem_map.mp (mem_sortRecords.mp hd) with ⟨d0, _, hEq⟩
  subst hEq
  by_cases hr : d0.region = r0
  · have htest : ((some r0 : Option String) == some d0.region) = true := by
      simp [hr]
    refine ⟨fun _ => ?_, fun hne => ?_⟩
    · rw [manualMark_channel]
      refine ⟨fun p hp hpos => ?_, fun p hp hpos => ?_, fun hp => ?_⟩
      · simp [manualMark, htest, hp, hpos]
      · simp [manualMark, htest, hp, hpos]
      · simp [manualMark, htest, hp]
    · exact absurd (by rw [manualMark_region]; exact hr) hne
  · have htest : ((some r0 : Option String) == some d0.region) = false := by
      simp [Ne.symm hr]
    refine ⟨fun habs => ?_, fun _ => ?_⟩
    · rw [manualMark_region] at habs
      exact absurd habs hr
    · simp [manualMark, htest]

/-- C10 witness: a one-region, one-channel manual split evaluated concretely. -/
theorem claim_C10_witness :
    (BriefData.regions ⟨[("a", ⟨"ta", none, none, none⟩)]⟩ = "a" :: []) ∧
    (generateManualSharesSplit [{ baseRec with region := "a", channel := "x" }]
        ⟨[("a", ⟨"ta", none, none, none⟩)]⟩
        (fun ch => if ch == "x" then some 30 else none)).Perm
      ([{ baseRec with region := "a", channel := "x" }].map
        (manualMark (some "a") (fun ch => if ch == "x" then some 30 else none))) :=
  ⟨by simp [BriefData.regions],
    (claim_C10 _ _ _ "a" [] (by simp [BriefData.regions])).1⟩

/-! ### Deselected records in finalized outputs (C6) -/

theorem manualMark_selected_or (reg : Option String) (sh : String → Option ℚ)
    (d : ChannelData) :
    (manualMark reg sh d).selected = true ∨
      ((manualMark reg sh d).selected = false ∧
        (manualMark reg sh d).share = some 0 ∧ (manualMark reg sh d).trp = some 0) := by
  unfold manualMark
  repeat' split
  all_goals simp

theorem manualMark_not_selected {reg : Option String} {sh : String → Option ℚ}
    {d : ChannelData} (h : (manualMark reg sh d).selected = false) :
    (manualMark reg sh d).share = some 0 ∧ (manualMark reg sh d).trp = some 0 := by
  rcases manualMark_selected_or reg sh d with hs | hs
  · rw [h] at hs; cases hs
  · exact hs.2

theorem optimizeSplit_not_selected (data : List ChannelData) (brief : BriefData)
    (logic : String) (al : Bool) (w : Option Weights) :
    ∀ d ∈ optimizeSplit data brief logic al w, d.selected = false →
      d.share = some 0 ∧ d.trp = some 0 := by
  intro d hd hsel
  unfold optimizeSplit at hd
  rcases List.mem_map.mp (mem_sortRecords.mp hd) with ⟨d0, _, hEq⟩
  subst hEq
  have h0 : d0.selected = false := by rw [← finalizeRecord_selected, hsel]
  exact finalizeRecord_of_not_selected h0

/-- C6 (amended): in every finalized split record — the outputs of
`optimizeSplit` (hence of every systematic and constructor variant) and of
the manual-shares variant — a false selection flag forces `share = 0` and
`trp = 0`.  (The base-snapshot records exposed in the results do not: they
carry `null` share and points, see the counterexample.) -/
theorem claim_C6_amended :
    (∀ (data : List ChannelData) (brief : BriefData) (logic : String)
      (al : Bool) (w : Option Weights),
      ∀ d ∈ optimizeSplit data brief logic al w, d.selected = false →
        d.share = some 0 ∧ d.trp = some 0) ∧
    (∀ (allChannels : List ChannelData) (brief : BriefData)
      (shares : String → Option ℚ),
      ∀ d ∈ generateManualSharesSplit allChannels brief shares,
        d.selected = false → d.share = some 0 ∧ d.trp = some 0) ∧
    (∀ (rows : List InputRow) (brief : BriefData) (name : String)
      (l : List ChannelData), (name, l) ∈ (processFilesAndCalculate rows brief).splits →
      ∀ d ∈ l, d.selected = false → d.share = some 0 ∧ d.trp = some 0) := by
  refine ⟨optimizeSplit_not_selected, ?_, ?_⟩
  · intro allChannels brief shares d hd hsel
    unfold generateManualSharesSplit at hd
    rcases List.mem_map.mp (mem_sortRecords.mp hd) with ⟨d0, _, hEq⟩
    subst hEq
    exact manualMark_not_selected hsel
  · intro rows brief name l hl d hd hsel
    unfold processFilesAndCalculate at hl
    rcases List.mem_map.mp hl with ⟨c, _, hEq⟩
    have hl2 : l = generateSingleSplit
        ((computeIndexTcpp brief.regions (buildInitialData brief rows)).map
          copyChannelData) brief c.2.1 c.2.2 := by
      have := congrArg Prod.snd hEq
      exact this.symm
    rw [hl2] at hd
    unfold generateSingleSplit at hd
    exact optimizeSplit_not_selected _ _ _ _ _ d hd hsel

/-- C6 witness: a concrete deselected record of a finalized split output. -/
theorem claim_C6_amended_witness :
    ({ baseRec with share := some 0, trp := some 0 } ∈
        optimizeSplit [baseRec] ⟨[]⟩ "Natural" false none ∧
      ChannelData.selected { baseRec with share := some 0, trp := some 0 } = false) ∧
    (ChannelData.share { baseRec with share := some 0, trp := some 0 } = some 0 ∧
      ChannelData.trp { baseRec with share := some 0, trp := some 0 } = some 0) := by
  have hmem : { baseRec with share := some 0, trp := some 0 } ∈
      optimizeSplit [baseRec] ⟨[]⟩ "Natural" false none := by
    norm_num [optimizeSplit, optLoop, optPassChanged, optPassData, BriefData.regions,
      orbitalCapPass, orbitalCapRegion, capOf, finalizePass, finalizeRecord,
      sortRecords, List.mergeSort, baseRec]
  exact ⟨⟨hmem, rfl⟩,
    claim_C6_amended.1 [baseRec] ⟨[]⟩ "Natural" false none _ hmem rfl⟩

/-- C6 counterexample: the results object also exposes the base snapshot
(`initialData`), whose records have `selected = false` but `share = null`
(not 0) — built here from one concrete parsed row. -/
theorem claim_C6_counterexample :
    ∃ d ∈ (processFilesAndCalculate
        [⟨"r1", "ch", false, "", some 1, some 1, some 1, some 10⟩]
        ⟨[("r1", ⟨"ta", none, none, none⟩)]⟩).initialData,
      d.selected = false ∧ d.share = none ∧ d.share ≠ some 0 := by
  repeat first
    | simp [processFilesAndCalculate, computeIndexTcpp, indexRegionStep, idxMark,
        buildInitialData, buildRecord, BriefData.regions, BriefData.find,
        channelTypeOf, jsIncludes, containsChars, startsWithChars, baseNameOf,
        takeUntilParen, trimChars, orZero, listMax]
    | norm_num [processFilesAndCalculate, computeIndexTcpp, indexRegionStep, idxMark,
        buildInitialData, buildRecord, BriefData.regions, BriefData.find,
        channelTypeOf, jsIncludes, containsChars, startsWithChars, baseNameOf,
        takeUntilParen, trimChars, orZero, listMax]

/-! ### Copy-on-write frame property (C8) -/

theorem splits_copy_eq (res : CalculationResults) :
    res.splits.map (fun p => (p.1, p.2.map copyChannelData)) = res.splits := by
  simp [map_copyChannelData]

theorem find?_map_writeKey (k name : String) (v : List ChannelData)
    (h : k ≠ name) :
    ∀ l : List (String × List ChannelData),
    (l.map (fun p => if p.1 == name then (name, v) else p)).find?
        (fun p => p.1 == k) =
      l.find? (fun p => p.1 == k) := by
  intro l
  induction l with
  | nil => rfl
  | cons p t ih =>
    rw [List.map_cons]
    by_cases hp : (p.1 == name) = true
    · have hp1 : p.1 = name := eq_of_beq hp
      have hk1 : ((name, v).1 == k) = false := by
        simp
        exact fun habs => h habs.symm
      have hk2 : (p.1 == k) = false := by
        rw [hp1]
        simp
        exact fun habs => h habs.symm
      rw [if_pos hp]
      simp only [List.find?_cons, hk1, hk2]
      exact ih
    · rw [if_neg hp]
      cases hq : (p.1 == k) with
      | true => simp only [List.find?_cons, hq]
      | false =>
        simp only [List.find?_cons, hq]
        exact ih

theorem upsert_find_ne (l : List (String × List ChannelData)) (k name : String)
    (v : List ChannelData) (h : k ≠ name) :
    (upsert l name v).find? (fun p => p.1 == k) = l.find? (fun p => p.1 == k) := by
  unfold upsert
  split
  · exact find?_map_writeKey k name v h l
  · have hk : (((name, v) : String × List ChannelData).1 == k) = false := by
      simp
      exact fun habs => h habs.symm
    rw [List.find?_append]
    simp [List.find?, hk]

/-- C8: recomputing an ad hoc variant never mutates the base snapshot or any
other finalized variant.  The `JSON.parse(JSON.stringify(...))` deep copy is
the identity on the embedded records, the two recompute handlers leave
`initialData` and every differently-named variant's records unchanged, and
the systematic splits computed from a deep copy of the snapshot coincide
with the same function applied to the snapshot itself. -/
theorem claim_C8 :
    (∀ d, copyChannelData d = d) ∧
    (∀ (res : CalculationResults) (brief : BriefData) (names : List String)
      (logic : String) (w : Option Weights),
      (recomputeConstructor res brief names logic w).initialData = res.initialData ∧
      ∀ k, k ≠ "Конструктор" →
        lookupSplit (recomputeConstructor res brief names logic w) k =
          lookupSplit res k) ∧
    (∀ (res : CalculationResults) (brief : BriefData) (shares : String → Option ℚ),
      (recomputeManualShares res brief shares).initialData = res.initialData ∧
      ∀ k, k ≠ "Ручные доли" →
        lookupSplit (recomputeManualShares res brief shares) k = lookupSplit res k) ∧
    (∀ (rows : List InputRow) (brief : BriefData),
      (processFilesAndCalculate rows brief).splits = splitConfigs.map (fun c =>
        (c.1, generateSingleSplit (processFilesAndCalculate rows brief).initialData
          brief c.2.1 c.2.2))) := by
  refine ⟨copyChannelData_eq, ?_, ?_, ?_⟩
  · intro res brief names logic w
    constructor
    · show res.initialData.map copyChannelData = res.initialData
      exact map_copyChannelData _
    · intro k hk
      show (((upsert (res.splits.map (fun p => (p.1, p.2.map copyChannelData)))
        "Конструктор" _).find? (fun p => p.1 == k)).map Prod.snd) = _
      rw [splits_copy_eq, upsert_find_ne _ _ _ _ hk]
      rfl
  · intro res brief shares
    constructor
    · show res.initialData.map copyChannelData = res.initialData
      exact map_copyChannelData _
    · intro k hk
      show (((upsert (res.splits.map (fun p => (p.1, p.2.map copyChannelData)))
        "Ручные доли" _).find? (fun p => p.1 == k)).map Prod.snd) = _
      rw [splits_copy_eq, upsert_find_ne _ _ _ _ hk]
      rfl
  · intro rows brief
    simp only [processFilesAndCalculate]
    refine List.map_congr_left (fun c _ => ?_)
    rw [map_copyChannelData]

/-- C8 witness: the frame property evaluated at a concrete session state. -/
theorem claim_C8_witness :
    (("Сплит (TCPP)" : String) ≠ "Конструктор") ∧
    lookupSplit (recomputeConstructor ⟨[("Сплит (TCPP)", [baseRec])], []⟩ ⟨[]⟩
      [] "TCPP" none) "Сплит (TCPP)" =
      lookupSplit ⟨[("Сплит (TCPP)", [baseRec])], []⟩ "Сплит (TCPP)" :=
  ⟨by simp, ((claim_C8.2.1 ⟨[("Сплит (TCPP)", [baseRec])], []⟩ ⟨[]⟩ [] "TCPP"
    none).2 "Сплит (TCPP)" (by simp))⟩

/-! ### Guarded normalisation (C9) -/

/-- A selected channel with a rating but no price (concrete input). -/
def priceless : ChannelData :=
  { baseRec with region := "e1", channel := "c", tvrTa := some 5, selected := true }

theorem updWR_share (r : String) (f : ChannelData → Option ℚ) (d : ChannelData) :
    (updWR r f d).share = d.share := by
  unfold updWR; split <;> rfl

theorem assignRatings_shares (logic : String) (w : Option Weights) (r : String)
    (l : List ChannelData) :
    (assignRatings logic w r l).map (·.share) = l.map (·.share) := by
  have hmap : ∀ f : ChannelData → Option ℚ,
      (l.map (updWR r f)).map (·.share) = l.map (·.share) := by
    intro f
    rw [List.map_map]
    exact List.map_congr_left fun d _ => updWR_share r f d
  simp only [assignRatings]
  repeat' split
  all_goals exact hmap _

/-- C9: when a region's total weighted rating is not strictly positive, the
share-normalisation division is skipped and the region's shares keep their
previous values; in particular a still-selected channel can leave the
optimizer finalized with `share = null` and `trp = 0` (concrete Efficiency
run whose only selected channel has no price). -/
theorem claim_C9 :
    (∀ (logic : String) (w : Option Weights) (r : String) (l : List ChannelData),
      ¬ 0 < normTotal r (assignRatings logic w r l) →
      (regionPass logic w l r).map (·.share) = l.map (·.share)) ∧
    (∃ d ∈ optimizeSplit [priceless]
        ⟨[("e1", ⟨"ta", none, none, none⟩)]⟩ "Efficiency" true none,
      d.selected = true ∧ d.share = none ∧ d.trp = some 0) := by
  constructor
  · intro logic w r l h
    unfold regionPass
    by_cases hsel : (selectedInRegion l r).isEmpty
    · rw [if_pos hsel]
    · rw [if_neg hsel]
      unfold normalizeShares
      rw [if_neg h]
      exact assignRatings_shares logic w r l
  · simp [optimizeSplit, optLoop, optPassChanged, optPassData, regionPass,
        selectedInRegion, assignRatings, updWR, weightedRatingFor, avgTcppOf,
        normalizeShares, normTotal, normFun, floorPass, floorFun,
        floorViolation, minShareOf, orbitalCapPass, orbitalCapRegion, capOf,
        sumSelOrbital, sumSelNetwork, capAdjustRecord, finalizePass,
        finalizeRecord, sortRecords, List.mergeSort, isOrbitalName, jsIncludes,
        containsChars, startsWithChars, orZero, orOne, BriefData.regions,
        BriefData.find, priceless, baseRec]

/-- C9 witness: the guarded division applied at the same concrete input. -/
theorem claim_C9_witness :
    (¬ 0 < normTotal "e1" (assignRatings "Efficiency" none "e1" [priceless])) ∧
    (regionPass "Efficiency" none [priceless] "e1").map (·.share) =
      [priceless].map (·.share) := by
  have h : ¬ 0 < normTotal "e1" (assignRatings "Efficiency" none "e1"
      [priceless]) := by
    simp [normTotal, assignRatings, selectedInRegion, updWR,
      weightedRatingFor, avgTcppOf, orZero, orOne, priceless, baseRec]
  exact ⟨h, claim_C9.1 "Efficiency" none "e1" _ h⟩

/-! ### Floor enforcement for limit-enabled optimisation (C2) -/

theorem floorFun_selected_sound (brief : BriefData) (d : ChannelData)
    (hsel : (floorFun brief d).selected = true) :
    floorFun brief d = d ∧ floorViolation brief d = false := by
  by_cases hv : floorViolation brief d = true
  · exfalso
    unfold floorFun at hsel
    rw [if_pos hv] at hsel
    exact Bool.false_ne_true hsel
  · have hv' : floorViolation brief d = false := Bool.eq_false_iff.mpr hv
    constructor
    · unfold floorFun
      rw [if_neg hv]
    · exact hv'

/-- Records of the floor pass that remain selected satisfy the floor. -/
theorem optPassData_floor (brief : BriefData) (logic : String) (w : Option Weights)
    (l : List ChannelData) (d : ChannelData)
    (hd : d ∈ optPassData brief logic w true l) (hsel : d.selected = true)
    (rb : RegionBrief) (hrb : brief.find d.region = some rb) :
    ∀ s, d.share = some s → ¬ s < minShareOf rb := by
  intro s hs hlt
  have hd2 : d ∈ floorPass brief (brief.regions.foldl (regionPass logic w) l) := hd
  rcases List.mem_map.mp hd2 with ⟨d2, _, hEq⟩
  have hsel2 : (floorFun brief d2).selected = true := by rw [hEq]; exact hsel
  rcases floorFun_selected_sound brief d2 hsel2 with ⟨hfix, hnoviol⟩
  have hd2eq : d2 = d := by rw [← hfix, hEq]
  subst hd2eq
  unfold floorViolation at hnoviol
  rw [hrb] at hnoviol
  simp only [hsel, hs] at hnoviol
  simp at hnoviol
  exact absurd hlt (not_lt.mpr hnoviol)

theorem capAdjustRecord_region (r : String) (c rf st tn : ℚ) (d : ChannelData) :
    (capAdjustRecord r c rf st tn d).region = d.region := by
  unfold capAdjustRecord
  repeat' split
  all_goals rfl

theorem capAdjustRecord_of_other_region {r : String} {c rf st tn : ℚ}
    {d : ChannelData} (h : (d.region == r) = false) :
    capAdjustRecord r c rf st tn d = d := by
  unfold capAdjustRecord
  rw [if_neg (by rw [h]; simp), if_neg (by rw [h]; simp)]

theorem orbitalCapRegion_filter_region (brief : BriefData) (l : List ChannelData)
    (r' r : String) (h : r' ≠ r ∨ capOf brief r' = none) :
    (orbitalCapRegion brief l r').filter (fun d => d.region == r) =
      l.filter (fun d => d.region == r) := by
  cases hfind : capOf brief r' with
  | none =>
    have hred : orbitalCapRegion brief l r' = l := by
      unfold orbitalCapRegion
      rw [hfind]
    rw [hred]
  | some capPct =>
    have hne : r' ≠ r := by
      rcases h with h | h
      · exact h
      · rw [hfind] at h; cases h
    have hred : orbitalCapRegion brief l r' =
        if capPct / 100 < sumSelOrbital r' l then
          l.map (capAdjustRecord r' capPct (capPct / 100 / sumSelOrbital r' l)
            (sumSelOrbital r' l - capPct / 100) (sumSelNetwork r' l))
        else l := by
      unfold orbitalCapRegion
      rw [hfind]
    rw [hred]
    split
    · refine filter_map_eq_filter (fun d => ?_) (fun d hp => ?_) l
      · rw [capAdjustRecord_region]
      · have hdr : d.region = r := eq_of_beq hp
        exact capAdjustRecord_of_other_region (by
          rw [hdr]
          simp
          exact fun habs => hne habs.symm)
    · rfl

theorem orbitalCapPass_filter_region (brief : BriefData) (r : String)
    (hcap : capOf brief r = none) :
    ∀ (rs : List String) (l : List ChannelData),
    (rs.foldl (orbitalCapRegion brief) l).filter (fun d => d.region == r) =
      l.filter (fun d => d.region == r) := by
  intro rs
  induction rs with
  | nil => intro l; rfl
  | cons r' t ih =>
    intro l
    rw [List.foldl_cons, ih]
    by_cases hr : r' = r
    · exact orbitalCapRegion_filter_region brief l r' r (Or.inr (hr ▸ hcap))
    · exact orbitalCapRegion_filter_region brief l r' r (Or.inl hr)

/-- C2 (amended): the three cutoff-based systematic variants are configured
with limits enabled while the Natural variant is configured with limits
disabled, and whenever the optimizer runs with limits enabled, every
still-selected channel of a brief region without an orbital cap ends with a
`null` share or a share at or above the region's minimum-share floor — the
floor pass really ran. -/
theorem claim_C2_amended :
    (∀ c ∈ splitConfigs, (c.2.1 ≠ "Natural" → c.2.2 = true) ∧
      (c.2.1 = "Natural" → c.2.2 = false)) ∧
    (∀ (data : List ChannelData) (brief : BriefData) (logic : String)
      (w : Option Weights) (rb : RegionBrief),
      ∀ d ∈ optimizeSplit data brief logic true w,
        brief.find d.region = some rb → rb.maxOrbitalShare = none →
        d.selected = true → ∀ s, d.share = some s → minShareOf rb ≤ s) ∧
    (∀ (data : List ChannelData) (brief : BriefData) (logic : String)
      (rb : RegionBrief),
      ∀ d ∈ generateSingleSplit data brief logic true,
        brief.find d.region = some rb → rb.maxOrbitalShare = none →
        d.selected = true → ∀ s, d.share = some s → minShareOf rb ≤ s) := by
  have hmain : ∀ (data : List ChannelData) (brief : BriefData) (logic : String)
      (w : Option Weights) (rb : RegionBrief),
      ∀ d ∈ optimizeSplit data brief logic true w,
        brief.find d.region = some rb → rb.maxOrbitalShare = none →
        d.selected = true → ∀ s, d.share = some s → minShareOf rb ≤ s := by
    intro data brief logic w rb d hd hrb hcap hsel s hs
    unfold optimizeSplit at hd
    rcases List.mem_map.mp (mem_sortRecords.mp hd) with ⟨d1, hd1, hEq⟩
    have hsel1 : d1.selected = true := by rw [← finalizeRecord_selected, hEq, hsel]
    have hreg1 : d1.region = d.region := by rw [← finalizeRecord_region, hEq]
    have hs1 : d1.share = some s := by
      rw [← finalizeRecord_share_of_selected hsel1, hEq, hs]
    have hcap0 : capOf brief d.region = none := by
      simp [capOf, hrb, hcap]
    have hd1' : d1 ∈ optLoop brief logic w true 20 data := by
      have hmem : d1 ∈ (List.foldl (orbitalCapRegion brief)
          (optLoop brief logic w true 20 data) brief.regions).filter
          (fun e => e.region == d.region) := by
        rw [List.mem_filter]
        exact ⟨hd1, by rw [hreg1]; simp⟩
      rw [orbitalCapPass_filter_region brief d.region hcap0 brief.regions
        (optLoop brief logic w true 20 data)] at hmem
      exact (List.mem_filter.mp hmem).1
    rcases optLoop_is_pass_output brief logic w true 19 data with ⟨l0, hl0⟩
    rw [show (20 : Nat) = 19 + 1 from rfl, hl0] at hd1'
    have := optPassData_floor brief logic w l0 d1 hd1' hsel1 rb
      (by rw [hreg1]; exact hrb) s hs1
    exact not_lt.mp this
  refine ⟨?_, hmain, ?_⟩
  · intro c hc
    fin_cases hc <;> constructor <;> intro h <;> first | rfl | simp at h
  · intro data brief logic rb d hd hrb hcap hsel s hs
    unfold generateSingleSplit at hd
    exact hmain _ brief logic none rb d hd hrb hcap hsel s hs

/-- A region brief with every optional field left at its default. -/
def rbTa : RegionBrief := ⟨"ta", none, none, none⟩

/-- A one-region brief. -/
def briefR1 : BriefData := ⟨[("r1", rbTa)]⟩

/-- A selected channel with rating 10 in region `r1`. -/
def flooredRec : ChannelData :=
  { baseRec with region := "r1", channel := "c", tvrTa := some 10, selected := true }

/-- The finalized record of the witness run below. -/
def flooredOut : ChannelData :=
  { flooredRec with weightedRating := some 10, share := some 1, trp := some 1000 }

/-- C2 witness: the floor guarantee applied to a concrete limit-enabled run
whose single channel ends with share 1. -/
theorem claim_C2_amended_witness :
    (flooredOut ∈ optimizeSplit [flooredRec] briefR1 "Natural" true none ∧
      briefR1.find "r1" = some rbTa ∧ rbTa.maxOrbitalShare = none ∧
      (true : Bool) = true) ∧
    minShareOf rbTa ≤ 1 := by
  have hmem : flooredOut ∈ optimizeSplit [flooredRec] briefR1 "Natural" true none := by
    repeat first
      | simp [optimizeSplit, optLoop, optPassChanged, optPassData, regionPass,
          selectedInRegion, assignRatings, updWR, weightedRatingFor, avgTcppOf,
          normalizeShares, normTotal, normFun, floorPass, floorFun,
          floorViolation, minShareOf, orbitalCapPass, orbitalCapRegion, capOf,
          sumSelOrbital, sumSelNetwork, capAdjustRecord, finalizePass,
          finalizeRecord, sortRecords, List.mergeSort, isOrbitalName, jsIncludes,
          containsChars, startsWithChars, orZero, orOne, BriefData.regions,
          BriefData.find, briefR1, rbTa, flooredOut, flooredRec, baseRec]
      | norm_num [optimizeSplit, optLoop, optPassChanged, optPassData, regionPass,
          selectedInRegion, assignRatings, updWR, weightedRatingFor, avgTcppOf,
          normalizeShares, normTotal, normFun, floorPass, floorFun,
          floorViolation, minShareOf, orbitalCapPass, orbitalCapRegion, capOf,
          sumSelOrbital, sumSelNetwork, capAdjustRecord, finalizePass,
          finalizeRecord, sortRecords, List.mergeSort, isOrbitalName, jsIncludes,
          containsChars, startsWithChars, orZero, orOne, BriefData.regions,
          BriefData.find, briefR1, rbTa, flooredOut, flooredRec, baseRec]
  refine ⟨⟨hmem, by simp [briefR1, BriefData.find], rfl, rfl⟩, ?_⟩
  exact claim_C2_amended.2.1 [flooredRec] briefR1 "Natural" none rbTa _ hmem
    (by simp [briefR1, BriefData.find, flooredOut, flooredRec, baseRec]) rfl rfl 1 rfl

/-- A ratings row for region `r1`, channel `a`: rating 99, price 1. -/
def natRowA : InputRow := ⟨"r1", "a", false, "", some 99, some 1, some 1, some 1⟩

/-- A ratings row for region `r1`, channel `b`: rating 1, price 1. -/
def natRowB : InputRow := ⟨"r1", "b", false, "", some 1, some 1, some 1, some 1⟩

set_option maxHeartbeats 2000000 in
/-- C2 counterexample: the Natural variant is configured with
`applyLimits: false`, so its optimisation runs without the minimum-share
pass — on a concrete two-channel region the Natural split keeps a selected
channel at share 1% although the default floor is 2%. -/
theorem claim_C2_counterexample :
    (("Сплит (Натуральный)", "Natural", false) ∈ splitConfigs) ∧
    (∃ d ∈ (lookupSplit (processFilesAndCalculate [natRowA, natRowB] briefR1)
        "Сплит (Натуральный)").getD [],
      d.selected = true ∧ d.share = some (1 / 100) ∧ (1 : ℚ) / 100 < 2 / 100) := by
  constructor
  · simp [splitConfigs]
  · repeat first
      | simp [processFilesAndCalculate, lookupSplit, splitConfigs,
          buildInitialData, buildRecord, computeIndexTcpp, indexRegionStep,
          idxMark, listMax,
          channelTypeOf, baseNameOf, takeUntilParen, trimChars,
          copyChannelData_eq, List.indexOf?, List.findIdx?,
          generateSingleSplit, naturalSelect, cutoffSelectRegion, cutoffMark,
          idxDescLE, jsSliceTo,
          optimizeSplit, optLoop, optPassChanged, optPassData, regionPass,
          selectedInRegion, assignRatings, updWR, weightedRatingFor, avgTcppOf,
          normalizeShares, normTotal, normFun, floorPass, floorFun,
          floorViolation, minShareOf, orbitalCapPass, orbitalCapRegion, capOf,
          sumSelOrbital, sumSelNetwork, capAdjustRecord, finalizePass,
          finalizeRecord, sortRecords, List.mergeSort, isOrbitalName, jsIncludes,
          containsChars, startsWithChars, orZero, orOne, BriefData.regions,
          BriefData.find, briefR1, rbTa, natRowA, natRowB, baseRec]
      | norm_num [processFilesAndCalculate, lookupSplit, splitConfigs,
          buildInitialData, buildRecord, computeIndexTcpp, indexRegionStep,
          idxMark, listMax,
          channelTypeOf, baseNameOf, takeUntilParen, trimChars,
          copyChannelData_eq, List.indexOf?, List.findIdx?,
          generateSingleSplit, naturalSelect, cutoffSelectRegion, cutoffMark,
          idxDescLE, jsSliceTo,
          optimizeSplit, optLoop, optPassChanged, optPassData, regionPass,
          selectedInRegion, assignRatings, updWR, weightedRatingFor, avgTcppOf,
          normalizeShares, normTotal, normFun, floorPass, floorFun,
          floorViolation, minShareOf, orbitalCapPass, orbitalCapRegion, capOf,
          sumSelOrbital, sumSelNetwork, capAdjustRecord, finalizePass,
          finalizeRecord, sortRecords, List.mergeSort, isOrbitalName, jsIncludes,
          containsChars, startsWithChars, orZero, orOne, BriefData.regions,
          BriefData.find, briefR1, rbTa, natRowA, natRowB, baseRec]

/-! ### Orbital-cap lemmas (C3) -/

theorem capAdjustRecord_selected (r : String) (c rf st tn : ℚ) (d : ChannelData) :
    (capAdjustRecord r c rf st tn d).selected = d.selected := by
  unfold capAdjustRecord
  repeat' split
  all_goals rfl

theorem capAdjustRecord_channel (r : String) (c rf st tn : ℚ) (d : ChannelData) :
    (capAdjustRecord r c rf st tn d).channel = d.channel := by
  unfold capAdjustRecord
  repeat' split
  all_goals rfl

/-- The orbital-branch update of `capAdjustRecord`. -/
theorem capAdjustRecord_orbital {r : String} {c rf st tn : ℚ} {d : ChannelData}
    (h : (d.region == r && d.selected && isOrbitalName d.channel) = true) :
    capAdjustRecord r c rf st tn d =
      { d with share := some (orZero d.share * rf), comment := some (.orbitalAdjusted c) } := by
  unfold capAdjustRecord
  rw [if_pos h]

/-- The network-branch update of `capAdjustRecord`. -/
theorem capAdjustRecord_network {r : String} {c rf st tn : ℚ} {d : ChannelData}
    (h : (d.region == r && d.selected && !isOrbitalName d.channel) = true)
    (htn : 0 < tn) :
    capAdjustRecord r c rf st tn d =
      { d with share := some (orZero d.share + orZero d.share / tn * st) } := by
  have h' := h
  simp only [Bool.and_eq_true, Bool.not_eq_true'] at h'
  obtain ⟨⟨hreg, hsel⟩, horb⟩ := h'
  unfold capAdjustRecord
  rw [if_neg (by simp [hreg, hsel, horb]), if_pos (by simp [hreg, hsel, horb, htn])]

/-- The cap step in its explicit `if` form, when the region has a cap. -/
theorem orbitalCapRegion_eq_ite (brief : BriefData) (l : List ChannelData)
    (r : String) (cap : ℚ) (hcap : capOf brief r = some cap) :
    orbitalCapRegion brief l r =
      if cap / 100 < sumSelOrbital r l then
        l.map (capAdjustRecord r cap (cap / 100 / sumSelOrbital r l) (sumSelOrbital r l - cap / 100) (sumSelNetwork r l))
      else l := by
  unfold orbitalCapRegion
  rw [hcap]

theorem sumSelOrbital_perm (r : String) {l₁ l₂ : List ChannelData}
    (h : l₁.Perm l₂) : sumSelOrbital r l₁ = sumSelOrbital r l₂ :=
  ((h.filter _).map _).sum_eq

theorem finalizeRecord_channel (d : ChannelData) :
    (finalizeRecord d).channel = d.channel := by
  unfold finalizeRecord; split <;> rfl

theorem sumSelOrbital_finalizePass (r : String) (l : List ChannelData) :
    sumSelOrbital r (finalizePass l) = sumSelOrbital r l := by
  unfold sumSelOrbital finalizePass
  rw [List.filter_map, List.map_map]
  have hp : ((fun d => d.region == r && d.selected && isOrbitalName d.channel) ∘
      finalizeRecord) =
      (fun d => d.region == r && d.selected && isOrbitalName d.channel) := by
    funext d
    simp only [Function.comp_apply, finalizeRecord_region, finalizeRecord_selected,
      finalizeRecord_channel]
  rw [hp]
  refine congrArg List.sum (List.map_congr_left fun d hd => ?_)
  have hsel : d.selected = true := by
    have hmem := List.of_mem_filter hd
    simp only [Bool.and_eq_true] at hmem
    exact hmem.1.2
  simp only [Function.comp_apply, finalizeRecord_share_of_selected hsel]

/-- A cap step for a different region leaves the share sums of region `r`
unchanged (all parameters abstract, so this applies to any step). -/
theorem sums_map_capAdjust_ne (r' r : String) (hne : r' ≠ r) (c rf st tn : ℚ)
    (l : List ChannelData) :
    sumSelOrbital r (l.map (capAdjustRecord r' c rf st tn)) = sumSelOrbital r l ∧
    sumSelNetwork r (l.map (capAdjustRecord r' c rf st tn)) = sumSelNetwork r l ∧
    sumSelShares r (l.map (capAdjustRecord r' c rf st tn)) = sumSelShares r l := by
  have hgen : ∀ p : ChannelData → Bool,
      (∀ d, p d = true → d.region = r) →
      (∀ d, p (capAdjustRecord r' c rf st tn d) = p d) →
      (l.map (capAdjustRecord r' c rf st tn)).filter p = l.filter p := by
    intro p hreg hp
    refine filter_map_eq_filter hp (fun d hd => ?_) l
    exact capAdjustRecord_of_other_region (by
      rw [hreg d hd]
      simp
      exact fun habs => hne habs.symm)
  have hproj : ∀ p : ChannelData → Bool,
      (∀ e e' : ChannelData, e.region = e'.region → e.selected = e'.selected →
        e.channel = e'.channel → p e = p e') →
      ∀ d, p (capAdjustRecord r' c rf st tn d) = p d := by
    intro p hdep d
    exact hdep _ _ (capAdjustRecord_region _ _ _ _ _ _)
      (capAdjustRecord_selected _ _ _ _ _ _) (capAdjustRecord_channel _ _ _ _ _ _)
  refine ⟨?_, ?_, ?_⟩
  · unfold sumSelOrbital
    rw [hgen _ (fun d hd => by
        simp only [Bool.and_eq_true] at hd
        exact eq_of_beq hd.1.1)
      (hproj _ (fun e e' h1 h2 h3 => by simp only [h1, h2, h3]))]
  · unfold sumSelNetwork
    rw [hgen _ (fun d hd => by
        simp only [Bool.and_eq_true] at hd
        exact eq_of_beq hd.1.1)
      (hproj _ (fun e e' h1 h2 h3 => by simp only [h1, h2, h3]))]
  · unfold sumSelShares
    rw [hgen _ (fun d hd => by
        simp only [Bool.and_eq_true] at hd
        exact eq_of_beq hd.1)
      (hproj _ (fun e e' h1 h2 h3 => by simp only [h1, h2, h3]))]

theorem orbitalCapRegion_sums_ne (brief : BriefData) (l : List ChannelData)
    (r' r : String) (hne : r' ≠ r) :
    sumSelOrbital r (orbitalCapRegion brief l r') = sumSelOrbital r l ∧
    sumSelNetwork r (orbitalCapRegion brief l r') = sumSelNetwork r l ∧
    sumSelShares r (orbitalCapRegion brief l r') = sumSelShares r l := by
  cases hfind : capOf brief r' with
  | none =>
    have hid : orbitalCapRegion brief l r' = l := by
      unfold orbitalCapRegion; rw [hfind]
    rw [hid]
    exact ⟨rfl, rfl, rfl⟩
  | some cap =>
    rw [orbitalCapRegion_eq_ite brief l r' cap hfind]
    split
    · exact sums_map_capAdjust_ne r' r hne _ _ _ _ l
    · exact ⟨rfl, rfl, rfl⟩

theorem orbitalCapFold_sums_not_mem (brief : BriefData) (r : String) :
    ∀ (rs : List String) (l : List ChannelData), r ∉ rs →
    sumSelOrbital r (rs.foldl (orbitalCapRegion brief) l) = sumSelOrbital r l ∧
    sumSelShares r (rs.foldl (orbitalCapRegion brief) l) = sumSelShares r l := by
  intro rs
  induction rs with
  | nil => intro l _; exact ⟨rfl, rfl⟩
  | cons r' t ih =>
    intro l hmem
    have hne : r' ≠ r := fun h => hmem (h ▸ List.mem_cons_self r' t)
    have hnt : r ∉ t := fun h => hmem (List.mem_cons_of_mem r' h)
    rw [List.foldl_cons]
    rcases ih (orbitalCapRegion brief l r') hnt with ⟨h1, h2⟩
    rcases orbitalCapRegion_sums_ne brief l r' r hne with ⟨h3, _, h5⟩
    exact ⟨h1.trans h3, h2.trans h5⟩

/-- The cap step of a region scales its own orbital sum by the reduction
factor (all parameters abstract). -/
theorem sumSelOrbital_map_capAdjust (r : String) (c rf st tn : ℚ)
    (l : List ChannelData) :
    sumSelOrbital r (l.map (capAdjustRecord r c rf st tn)) =
      sumSelOrbital r l * rf := by
  unfold sumSelOrbital
  rw [List.filter_map, List.map_map]
  have hp : ((fun d => d.region == r && d.selected && isOrbitalName d.channel) ∘
      capAdjustRecord r c rf st tn) =
      (fun d => d.region == r && d.selected && isOrbitalName d.channel) := by
    funext d
    simp only [Function.comp_apply, capAdjustRecord_region,
      capAdjustRecord_selected, capAdjustRecord_channel]
  rw [hp]
  have hshare : ∀ d ∈ l.filter
      (fun d => d.region == r && d.selected && isOrbitalName d.channel),
      (((fun e => orZero e.share) ∘ capAdjustRecord r c rf st tn) d) =
        orZero d.share * rf := by
    intro d hd
    have hcond := List.of_mem_filter hd
    simp only [Function.comp_apply, capAdjustRecord_orbital hcond, orZero,
      Option.getD_some]
  rw [List.map_congr_left hshare, List.sum_map_mul_right]

/-- The cap step of a region scales its own network sum by `1 + st / tn`
whenever the network total parameter is positive. -/
theorem sumSelNetwork_map_capAdjust (r : String) (c rf st tn : ℚ)
    (htn : 0 < tn) (l : List ChannelData) :
    sumSelNetwork r (l.map (capAdjustRecord r c rf st tn)) =
      sumSelNetwork r l * (1 + st / tn) := by
  unfold sumSelNetwork
  rw [List.filter_map, List.map_map]
  have hp : ((fun d => d.region == r && d.selected && !isOrbitalName d.channel) ∘
      capAdjustRecord r c rf st tn) =
      (fun d => d.region == r && d.selected && !isOrbitalName d.channel) := by
    funext d
    simp only [Function.comp_apply, capAdjustRecord_region,
      capAdjustRecord_selected, capAdjustRecord_channel]
  rw [hp]
  have hshare : ∀ d ∈ l.filter
      (fun d => d.region == r && d.selected && !isOrbitalName d.channel),
      (((fun e => orZero e.share) ∘ capAdjustRecord r c rf st tn) d) =
        orZero d.share * (1 + st / tn) := by
    intro d hd
    have hcond := List.of_mem_filter hd
    simp only [Function.comp_apply, capAdjustRecord_network hcond htn, orZero,
      Option.getD_some]
    field_simp
    ring
  rw [List.map_congr_left hshare, List.sum_map_mul_right]

theorem sumSelShares_split (r : String) :
    ∀ l : List ChannelData, sumSelShares r l = sumSelOrbital r l + sumSelNetwork r l := by
  intro l
  induction l with
  | nil => simp [sumSelShares, sumSelOrbital, sumSelNetwork]
  | cons d t ih =>
    unfold sumSelShares sumSelOrbital sumSelNetwork at ih ⊢
    cases ha : (d.region == r) <;> cases hb : d.selected <;>
      cases hc : isOrbitalName d.channel <;>
      simp [List.filter_cons, ha, hb, hc] <;> rw [ih] <;> ring

theorem mem_regions_of_capOf (brief : BriefData) (r : String) (cap : ℚ)
    (h : capOf brief r = some cap) : r ∈ brief.regions := by
  unfold capOf at h
  cases hfind : brief.find r with
  | none => rw [hfind] at h; cases h
  | some rb =>
    unfold BriefData.find at hfind
    cases hf2 : brief.regionBriefs.find? (fun p => p.1 == r) with
    | none => rw [hf2] at hfind; cases hfind
    | some pr =>
      have hpr : pr.1 = r := by
        have h0 := List.find?_some hf2
        simp only [beq_iff_eq] at h0
        exact h0
      have hmem : pr ∈ brief.regionBriefs := List.mem_of_find?_eq_some hf2
      unfold BriefData.regions
      rw [← hpr]
      exact List.mem_map_of_mem Prod.fst hmem

theorem orbitalCapRegion_own_le (brief : BriefData) (l : List ChannelData)
    (r : String) (cap : ℚ) (hcap : capOf brief r = some cap) (hpos : 0 ≤ cap) :
    sumSelOrbital r (orbitalCapRegion brief l r) ≤ cap / 100 := by
  rw [orbitalCapRegion_eq_ite brief l r cap hcap]
  split
  · rename_i hex
    rw [sumSelOrbital_map_capAdjust]
    have hT : 0 < sumSelOrbital r l := lt_of_le_of_lt (by positivity) hex
    rw [mul_div_assoc', mul_div_cancel_left₀ _ (ne_of_gt hT)]
  · rename_i hex
    exact not_lt.mp hex

theorem orbitalCapFold_le (brief : BriefData) (r : String) (cap : ℚ)
    (hcap : capOf brief r = some cap) (hpos : 0 ≤ cap) :
    ∀ (rs : List String) (l : List ChannelData), r ∈ rs →
    sumSelOrbital r (rs.foldl (orbitalCapRegion brief) l) ≤ cap / 100 := by
  intro rs
  induction rs with
  | nil => intro l hmem; cases hmem
  | cons r' t ih =>
    intro l hmem
    rw [List.foldl_cons]
    by_cases hrt : r ∈ t
    · exact ih _ hrt
    · have hr' : r' = r := by
        rcases List.mem_cons.mp hmem with h | h
        · exact h.symm
        · exact absurd h hrt
      subst hr'
      rw [(orbitalCapFold_sums_not_mem brief r' t _ hrt).1]
      exact orbitalCapRegion_own_le brief l r' cap hcap hpos

/-- C3: with limits enabled and a configured (non-negative) orbital cap,
the optimizer's final orbital share total never exceeds the cap; and when
the cap is exceeded before the pass, the pass scales every selected orbital
channel's share by `cap ÷ currentOrbitalTotal` (bringing the orbital total
to exactly the cap) and gives every selected non-orbital channel its
share-proportional part of the freed total (whenever the non-orbital total
is positive, so that the region's overall share sum is preserved). -/
theorem claim_C3 :
    (∀ (data : List ChannelData) (brief : BriefData) (logic : String)
      (w : Option Weights) (r : String) (cap : ℚ),
      capOf brief r = some cap → 0 ≤ cap →
      sumSelOrbital r (optimizeSplit data brief logic true w) ≤ cap / 100) ∧
    (∀ (brief : BriefData) (l : List ChannelData) (r : String) (cap : ℚ),
      capOf brief r = some cap → 0 ≤ cap → cap / 100 < sumSelOrbital r l →
      sumSelOrbital r (orbitalCapRegion brief l r) = cap / 100 ∧
      (∀ d ∈ l, (d.region == r && d.selected && isOrbitalName d.channel) = true →
        { d with share := some (orZero d.share * (cap / 100 / sumSelOrbital r l)), comment := some (.orbitalAdjusted cap) } ∈ orbitalCapRegion brief l r) ∧
      (0 < sumSelNetwork r l →
        (∀ d ∈ l, (d.region == r && d.selected && !isOrbitalName d.channel) = true →
          { d with share := some (orZero d.share + orZero d.share / sumSelNetwork r l * (sumSelOrbital r l - cap / 100)) } ∈ orbitalCapRegion brief l r) ∧
        sumSelShares r (orbitalCapRegion brief l r) = sumSelShares r l)) := by
  have hexact : ∀ (brief : BriefData) (l : List ChannelData) (r : String) (cap : ℚ),
      capOf brief r = some cap → 0 ≤ cap → cap / 100 < sumSelOrbital r l →
      sumSelOrbital r (orbitalCapRegion brief l r) = cap / 100 := by
    intro brief l r cap hcap hpos hex
    rw [orbitalCapRegion_eq_ite brief l r cap hcap, if_pos hex,
      sumSelOrbital_map_capAdjust]
    have hT : 0 < sumSelOrbital r l := lt_of_le_of_lt (by positivity) hex
    rw [mul_div_assoc', mul_div_cancel_left₀ _ (ne_of_gt hT)]
  constructor
  · intro data brief logic w r cap hcap hpos
    have hr : r ∈ brief.regions := mem_regions_of_capOf brief r cap hcap
    have h1 : sumSelOrbital r (optimizeSplit data brief logic true w) =
        sumSelOrbital r (orbitalCapPass brief
          (optLoop brief logic w true 20 data)) := by
      unfold optimizeSplit
      rw [sumSelOrbital_perm r (sortRecords_perm _), sumSelOrbital_finalizePass]
      rfl
    rw [h1]
    exact orbitalCapFold_le brief r cap hcap hpos brief.regions _ hr
  · intro brief l r cap hcap hpos hex
    refine ⟨hexact brief l r cap hcap hpos hex, ?_, ?_⟩
    · intro d hd hcond
      rw [orbitalCapRegion_eq_ite brief l r cap hcap, if_pos hex]
      have := List.mem_map_of_mem
        (capAdjustRecord r cap (cap / 100 / sumSelOrbital r l)
          (sumSelOrbital r l - cap / 100) (sumSelNetwork r l)) hd
      rw [capAdjustRecord_orbital hcond] at this
      exact this
    · intro hnet
      constructor
      · intro d hd hcond
        rw [orbitalCapRegion_eq_ite brief l r cap hcap, if_pos hex]
        have := List.mem_map_of_mem
          (capAdjustRecord r cap (cap / 100 / sumSelOrbital r l)
            (sumSelOrbital r l - cap / 100) (sumSelNetwork r l)) hd
        rw [capAdjustRecord_network hcond hnet] at this
        exact this
      · have horb := hexact brief l r cap hcap hpos hex
        have hnet2 : sumSelNetwork r (orbitalCapRegion brief l r) =
            sumSelNetwork r l + (sumSelOrbital r l - cap / 100) := by
          rw [orbitalCapRegion_eq_ite brief l r cap hcap, if_pos hex,
            sumSelNetwork_map_capAdjust r cap _ _ _ hnet]
          field_simp
          ring
        rw [sumSelShares_split, sumSelShares_split, horb, hnet2]
        ring

/-- A one-region brief with a 50% orbital cap. -/
def orbBrief : BriefData := ⟨[("o1", ⟨"ta", none, some 50, none⟩)]⟩

/-- A selected orbital channel in region `o1`. -/
def orbRec : ChannelData :=
  { baseRec with region := "o1", channel := "c - 0", tvrTa := some 10, selected := true }

/-- C3 witness: the cap bound applied at a concrete capped run. -/
theorem claim_C3_witness :
    (capOf orbBrief "o1" = some 50 ∧ (0 : ℚ) ≤ 50) ∧
    sumSelOrbital "o1" (optimizeSplit [orbRec] orbBrief "Natural" true none) ≤
      50 / 100 :=
  ⟨⟨by simp [capOf, orbBrief, BriefData.find], by norm_num⟩,
    claim_C3.1 [orbRec] orbBrief "Natural" none "o1" 50
      (by simp [capOf, orbBrief, BriefData.find]) (by norm_num)⟩

/-! ### Relative cost index (C5) -/

theorem listMax_mem : ∀ {l : List ℚ}, l ≠ [] → listMax l ∈ l := by
  intro l
  induction l with
  | nil => intro h; exact absurd rfl h
  | cons x t ih =>
    intro _
    cases t with
    | nil => exact List.mem_singleton.mpr rfl
    | cons y u =>
      unfold listMax
      rcases max_choice x (listMax (y :: u)) with h | h
      · rw [h]; exact List.mem_cons_self _ _
      · rw [h]; exact List.mem_cons_of_mem _ (ih (by simp))

theorem listMax_ge : ∀ {l : List ℚ}, ∀ x ∈ l, x ≤ listMax l := by
  intro l
  induction l with
  | nil => intro x hx; cases hx
  | cons a t ih =>
    intro x hx
    cases t with
    | nil =>
      rcases List.mem_singleton.mp hx with h
      rw [h]; exact le_rfl
    | cons y u =>
      unfold listMax
      rcases List.mem_cons.mp hx with h | h
      · rw [h]; exact le_max_left _ _
      · exact le_trans (ih x h) (le_max_right _ _)

theorem idxMark_region (r : String) (m : ℚ) (d : ChannelData) :
    (idxMark r m d).region = d.region := by
  unfold idxMark; split <;> rfl

theorem idxMark_tcpp (r : String) (m : ℚ) (d : ChannelData) :
    (idxMark r m d).tcpp = d.tcpp := by
  unfold idxMark; split <;> rfl

theorem idxMark_of_other_region {r : String} {m : ℚ} {d : ChannelData}
    (h : (d.region == r) = false) : idxMark r m d = d := by
  unfold idxMark
  rw [if_neg (by rw [h]; simp)]

/-- The region/tcpp filter and its tcpp values are invariant under any index
step (only `indexTcpp` is written). -/
theorem indexRegionStep_tcppVals (acc : List ChannelData) (r' r : String) :
    ((indexRegionStep acc r').filter (fun d => d.region == r && d.tcpp.isSome)).map
        (fun d => orZero d.tcpp) =
      (acc.filter (fun d => d.region == r && d.tcpp.isSome)).map
        (fun d => orZero d.tcpp) := by
  have hp : ∀ m : ℚ, ((fun d => d.region == r && d.tcpp.isSome) ∘ idxMark r' m) =
      (fun d => d.region == r && d.tcpp.isSome) := fun m => funext fun d => by
    simp only [Function.comp_apply, idxMark_region, idxMark_tcpp]
  simp only [indexRegionStep]
  split
  · rw [List.filter_map, hp _, List.map_map]
    refine List.map_congr_left fun d _ => ?_
    simp only [Function.comp_apply, idxMark_tcpp]
  · rfl

/-- An index step for a different region leaves the other region's records
untouched. -/
theorem indexRegionStep_filter_ne (acc : List ChannelData) (r' r : String)
    (hne : r' ≠ r) :
    (indexRegionStep acc r').filter (fun d => d.region == r) =
      acc.filter (fun d => d.region == r) := by
  simp only [indexRegionStep]
  split
  · refine filter_map_eq_filter (fun d => ?_) (fun d hd => ?_) acc
    · simp only [idxMark_region]
    · exact idxMark_of_other_region (by
        rw [eq_of_beq hd]
        simp
        exact fun habs => hne habs.symm)
  · rfl

theorem indexFold_filter_not_mem (r : String) :
    ∀ (rs : List String) (acc : List ChannelData), r ∉ rs →
    (rs.foldl indexRegionStep acc).filter (fun d => d.region == r) =
      acc.filter (fun d => d.region == r) := by
  intro rs
  induction rs with
  | nil => intro acc _; rfl
  | cons r' t ih =>
    intro acc hmem
    have hne : r' ≠ r := fun h => hmem (h ▸ List.mem_cons_self r' t)
    have hnt : r ∉ t := fun h => hmem (List.mem_cons_of_mem r' h)
    rw [List.foldl_cons, ih _ hnt, indexRegionStep_filter_ne acc r' r hne]

theorem indexFold_tcppVals (r : String) :
    ∀ (rs : List String) (acc : List ChannelData),
    ((rs.foldl indexRegionStep acc).filter
        (fun d => d.region == r && d.tcpp.isSome)).map (fun d => orZero d.tcpp) =
      (acc.filter (fun d => d.region == r && d.tcpp.isSome)).map
        (fun d => orZero d.tcpp) := by
  intro rs
  induction rs with
  | nil => intro acc; rfl
  | cons r' t ih =>
    intro acc
    rw [List.foldl_cons, ih _, indexRegionStep_tcppVals acc r' r]

/-- The own-region step: with a positive maximum, every record of the region
with a `tcpp` receives index `tcpp / max`, and some record receives exactly 1. -/
theorem indexRegionStep_own (acc : List ChannelData) (r : String)
    (hpos : 0 < listMax ((acc.filter
      (fun d => d.region == r && d.tcpp.isSome)).map (fun d => orZero d.tcpp))) :
    (∀ d ∈ indexRegionStep acc r, d.region = r → ∀ t, d.tcpp = some t →
      d.indexTcpp = some (t / listMax ((acc.filter
        (fun d => d.region == r && d.tcpp.isSome)).map (fun d => orZero d.tcpp)))) ∧
    (∃ d ∈ indexRegionStep acc r, d.region = r ∧ d.indexTcpp = some 1) := by
  set M := listMax ((acc.filter
    (fun d => d.region == r && d.tcpp.isSome)).map (fun d => orZero d.tcpp)) with hM
  have hfil : acc.filter (fun d => d.region == r && d.tcpp.isSome) ≠ [] := by
    intro habs
    rw [habs] at hM
    rw [hM] at hpos
    simp [listMax] at hpos
  have hlen : 0 < (acc.filter (fun d => d.region == r && d.tcpp.isSome)).length :=
    List.length_pos.mpr hfil
  have hstep : indexRegionStep acc r = acc.map (idxMark r M) := by
    simp only [indexRegionStep]
    rw [if_pos hlen]
  constructor
  · intro d hd hreg t ht
    rw [hstep] at hd
    rcases List.mem_map.mp hd with ⟨d0, _, hEq⟩
    have hreg0 : d0.region = r := by rw [← idxMark_region r M d0, hEq, hreg]
    have ht0 : d0.tcpp = some t := by rw [← idxMark_tcpp r M d0, hEq, ht]
    rw [← hEq]
    unfold idxMark
    rw [if_pos (by simp [hreg0, ht0, hpos])]
    simp [ht0, orZero]
  · have hmax : M ∈ (acc.filter (fun d => d.region == r && d.tcpp.isSome)).map
        (fun d => orZero d.tcpp) := by
      apply listMax_mem
      simp [hfil]
    rcases List.mem_map.mp hmax with ⟨d0, hd0, hval⟩
    have hcond := List.of_mem_filter hd0
    simp only [Bool.and_eq_true] at hcond
    have hreg0 : d0.region = r := eq_of_beq hcond.1
    rcases Option.isSome_iff_exists.mp hcond.2 with ⟨t0, ht0⟩
    have ht0M : t0 = M := by
      rw [ht0] at hval
      simpa [orZero] using hval
    refine ⟨idxMark r M d0, ?_, ?_, ?_⟩
    · rw [hstep]
      exact List.mem_map_of_mem _ (List.mem_of_mem_filter hd0)
    · rw [idxMark_region, hreg0]
    · unfold idxMark
      rw [if_pos (by simp [hreg0, hcond.2, hpos])]
      simp [ht0, ht0M, orZero, div_self (ne_of_gt hpos)]

/-- The full index fold: in a region listed among the processed regions and
whose maximal defined TCPP is positive, every TCPP-carrying record gets an
index in the claimed range and some record gets index exactly 1. -/
theorem indexFold_spec (r : String) :
    ∀ rs : List String, r ∈ rs → ∀ acc : List ChannelData,
    0 < listMax ((acc.filter
      (fun d => d.region == r && d.tcpp.isSome)).map (fun d => orZero d.tcpp)) →
    (∀ d ∈ rs.foldl indexRegionStep acc, d.region = r → ∀ t, d.tcpp = some t →
      ∃ q, d.indexTcpp = some q ∧ q ≤ 1 ∧ (0 < t → 0 < q)) ∧
    (∃ d ∈ rs.foldl indexRegionStep acc, d.region = r ∧ d.indexTcpp = some 1) := by
  intro rs
  induction rs with
  | nil => intro h; cases h
  | cons r' t ih =>
    intro hmem acc hpos
    rw [List.foldl_cons]
    by_cases hrt : r ∈ t
    · exact ih hrt (indexRegionStep acc r')
        (by rw [indexRegionStep_tcppVals acc r' r]; exact hpos)
    · have hr' : r' = r := by
        rcases List.mem_cons.mp hmem with h | h
        · exact h.symm
        · exact absurd h hrt
      subst hr'
      rcases indexRegionStep_own acc r' hpos with ⟨hall, hex⟩
      have hpres := indexFold_filter_not_mem r' t (indexRegionStep acc r') hrt
      constructor
      · intro d hd hreg t0 ht0
        have hdmem : d ∈ (t.foldl indexRegionStep
            (indexRegionStep acc r')).filter (fun e => e.region == r') :=
          List.mem_filter.mpr ⟨hd, by simp [hreg]⟩
        rw [hpres] at hdmem
        have hd' : d ∈ indexRegionStep acc r' := List.mem_of_mem_filter hdmem
        have hidx := hall d hd' hreg t0 ht0
        refine ⟨t0 / listMax ((acc.filter
          (fun e => e.region == r' && e.tcpp.isSome)).map (fun e => orZero e.tcpp)),
          hidx, ?_, ?_⟩
        · rw [div_le_one hpos]
          have hdm2 : d ∈ (indexRegionStep acc r').filter
              (fun e => e.region == r' && e.tcpp.isSome) :=
            List.mem_filter.mpr ⟨hd', by simp [hreg, ht0]⟩
          have hval : t0 ∈ ((indexRegionStep acc r').filter
              (fun e => e.region == r' && e.tcpp.isSome)).map
              (fun e => orZero e.tcpp) :=
            List.mem_map.mpr ⟨d, hdm2, by simp [orZero, ht0]⟩
          rw [indexRegionStep_tcppVals acc r' r'] at hval
          exact listMax_ge _ hval
        · intro ht0pos
          exact div_pos ht0pos hpos
      · rcases hex with ⟨d, hd, hreg, hidx⟩
        refine ⟨d, ?_, hreg, hidx⟩
        have hdm : d ∈ (indexRegionStep acc r').filter (fun e => e.region == r') :=
          List.mem_filter.mpr ⟨hd, by simp [hreg]⟩
        rw [← hpres] at hdm
        exact List.mem_of_mem_filter hdm

/-- C5 (amended): whenever some channel of a region has a positive TCPP,
every channel of the region with a defined TCPP gets a defined relative cost
index that is at most 1 (and positive whenever its own TCPP is positive),
and at least one channel of the region gets index exactly 1.0 (several
channels can tie for it, see the counterexample). -/
theorem claim_C5_amended (regions : List String) (data : List ChannelData)
    (r : String) (hmem : r ∈ regions)
    (hpos : 0 < listMax ((data.filter
      (fun d => d.region == r && d.tcpp.isSome)).map (fun d => orZero d.tcpp))) :
    (∀ d ∈ computeIndexTcpp regions data, d.region = r → ∀ t, d.tcpp = some t →
      ∃ q, d.indexTcpp = some q ∧ q ≤ 1 ∧ (0 < t → 0 < q)) ∧
    (∃ d ∈ computeIndexTcpp regions data, d.region = r ∧ d.indexTcpp = some 1) := by
  unfold computeIndexTcpp
  exact indexFold_spec r regions hmem data hpos

/-- A record with TCPP 5 in region `r1`, channel `a`. -/
def tcppRecA : ChannelData :=
  { baseRec with region := "r1", channel := "a", tcpp := some 5 }

/-- A record with TCPP 5 in region `r1`, channel `b`. -/
def tcppRecB : ChannelData :=
  { baseRec with region := "r1", channel := "b", tcpp := some 5 }

/-- C5 witness: the amended statement applied to a concrete one-channel
region. -/
theorem claim_C5_amended_witness :
    (("r1" : String) ∈ ["r1"] ∧
      0 < listMax (([tcppRecA].filter
        (fun d => d.region == "r1" && d.tcpp.isSome)).map (fun d => orZero d.tcpp))) ∧
    (∃ d ∈ computeIndexTcpp ["r1"] [tcppRecA], d.region = "r1" ∧
      d.indexTcpp = some 1) := by
  have hpos : 0 < listMax (([tcppRecA].filter
      (fun d => d.region == "r1" && d.tcpp.isSome)).map (fun d => orZero d.tcpp)) := by
    norm_num [tcppRecA, baseRec, listMax, orZero]
  exact ⟨⟨List.mem_singleton.mpr rfl, hpos⟩,
    (claim_C5_amended ["r1"] [tcppRecA] "r1" (List.mem_singleton.mpr rfl) hpos).2⟩

/-- C5 counterexample: two channels of the same region with equal TCPPs both
receive relative cost index 1.0 — the index-1 channel is not unique. -/
theorem claim_C5_counterexample :
    ((computeIndexTcpp ["r1"] [tcppRecA, tcppRecB]).filter
      (fun d => d.indexTcpp == some 1)).length = 2 ∧ (2 : ℕ) ≠ 1 := by
  constructor
  · repeat first
      | simp [computeIndexTcpp, indexRegionStep, idxMark, listMax, orZero,
          tcppRecA, tcppRecB, baseRec]
      | norm_num [computeIndexTcpp, indexRegionStep, idxMark, listMax, orZero,
          tcppRecA, tcppRecB, baseRec]
  · norm_num

/-! ## Claim C4: the initial cutoff-based selection

Spec-side abbreviations for the ranking the claim describes: the region's
channels that carry a cost index, ranked descending, and the names of the
top `⌈N · cutoff% / 100⌉` of them. -/

/-- The region's channels with a defined relative cost index. -/
def cutoffWithIdx (data : List ChannelData) (r : String) : List ChannelData :=
  data.filter (fun d => d.region == r && d.indexTcpp.isSome)

/-- Those channels ranked descending by cost index (stably). -/
def cutoffRanking (data : List ChannelData) (r : String) : List ChannelData :=
  (cutoffWithIdx data r).mergeSort idxDescLE

/-- `⌈N · cutoff% / 100⌉` as a count. -/
def cutoffCount (brief : BriefData) (data : List ChannelData) (r : String) : ℕ :=
  (⌈((cutoffWithIdx data r).length : ℚ) *
      ((((brief.find r).bind (fun rb => rb.expensiveChannelCutoff)).getD 20) /
        100)⌉).toNat

/-- The channel names of the top `cutoffCount` ranked channels. -/
def cutoffTopNames (brief : BriefData) (data : List ChannelData) (r : String) :
    List String :=
  ((cutoffRanking data r).take (cutoffCount brief data r)).map (fun d => d.channel)

theorem cutoffWithIdx_eq (data : List ChannelData) (r : String) :
    cutoffWithIdx data r =
      data.filter (fun d => d.region == r && d.indexTcpp.isSome) := rfl

theorem cutoffTopNames_eq (brief : BriefData) (data : List ChannelData)
    (r : String) :
    cutoffTopNames brief data r =
      ((cutoffRanking data r).take (cutoffCount brief data r)).map
        (fun d => d.channel) := rfl

theorem contains_eq_mem (l : List String) (a : String) :
    l.contains a = true ↔ a ∈ l := List.elem_iff

theorem cutoffMark_region (r : String) (ex : List String) (d : ChannelData) :
    (cutoffMark r ex d).region = d.region := by
  unfold cutoffMark
  repeat' split
  all_goals rfl

theorem cutoffMark_channel (r : String) (ex : List String) (d : ChannelData) :
    (cutoffMark r ex d).channel = d.channel := by
  unfold cutoffMark
  repeat' split
  all_goals rfl

theorem cutoffMark_indexTcpp (r : String) (ex : List String) (d : ChannelData) :
    (cutoffMark r ex d).indexTcpp = d.indexTcpp := by
  unfold cutoffMark
  repeat' split
  all_goals rfl

theorem cutoffMark_of_other_region {r : String} {ex : List String}
    {d : ChannelData} (h : d.region ≠ r) : cutoffMark r ex d = d := by
  unfold cutoffMark
  rw [if_neg (by simpa using h)]

theorem cutoffMark_none_selected {r : String} {ex : List String}
    {d : ChannelData} (hreg : d.region = r) (hidx : d.indexTcpp = none) :
    (cutoffMark r ex d).selected = false := by
  simp [cutoffMark, hreg, hidx]

theorem cutoffMark_some_selected {r : String} {ex : List String}
    {d : ChannelData} (hreg : d.region = r) {v : ℚ}
    (hv : d.indexTcpp = some v) :
    (cutoffMark r ex d).selected = !ex.contains d.channel := by
  cases hc : ex.contains d.channel
  · have hm : d.channel ∉ ex := fun h => by
      rw [(contains_eq_mem ex d.channel).mpr h] at hc; cases hc
    simp [cutoffMark, hreg, hv, hm, hc]
  · have hm : d.channel ∈ ex := (contains_eq_mem ex d.channel).mp hc
    simp [cutoffMark, hreg, hv, hm, hc]

theorem cutoffSelectRegion_filter_ne (brief : BriefData) (acc : List ChannelData)
    (r' r : String) (hne : r' ≠ r) :
    (cutoffSelectRegion brief acc r').filter (fun d => d.region == r) =
      acc.filter (fun d => d.region == r) := by
  simp only [cutoffSelectRegion]
  split
  · rfl
  · refine filter_map_eq_filter (fun d => ?_) (fun d hd => ?_) acc
    · simp only [cutoffMark_region]
    · exact cutoffMark_of_other_region (by
        rw [eq_of_beq hd]
        exact fun habs => hne habs.symm)

theorem cutoffSelectRegion_filter_idx_ne (brief : BriefData)
    (acc : List ChannelData) (r' r : String) (hne : r' ≠ r) :
    (cutoffSelectRegion brief acc r').filter
        (fun d => d.region == r && d.indexTcpp.isSome) =
      acc.filter (fun d => d.region == r && d.indexTcpp.isSome) := by
  simp only [cutoffSelectRegion]
  split
  · rfl
  · refine filter_map_eq_filter (fun d => ?_) (fun d hd => ?_) acc
    · simp only [cutoffMark_region, cutoffMark_indexTcpp]
    · have hd2 : (d.region == r && d.indexTcpp.isSome) = true := hd
      simp only [Bool.and_eq_true] at hd2
      exact cutoffMark_of_other_region (by
        rw [eq_of_beq hd2.1]
        exact fun habs => hne habs.symm)

theorem cutoffFold_filter_not_mem (brief : BriefData) (r : String) :
    ∀ (rs : List String) (acc : List ChannelData), r ∉ rs →
    (rs.foldl (cutoffSelectRegion brief) acc).filter (fun d => d.region == r) =
      acc.filter (fun d => d.region == r) := by
  intro rs
  induction rs with
  | nil => intro acc _; rfl
  | cons r' t ih =>
    intro acc hmem
    have hne : r' ≠ r := fun h => hmem (h ▸ List.mem_cons_self r' t)
    have hnt : r ∉ t := fun h => hmem (List.mem_cons_of_mem r' h)
    rw [List.foldl_cons, ih _ hnt, cutoffSelectRegion_filter_ne brief acc r' r hne]

theorem cutoffFold_filter_idx_not_mem (brief : BriefData) (r : String) :
    ∀ (rs : List String) (acc : List ChannelData), r ∉ rs →
    (rs.foldl (cutoffSelectRegion brief) acc).filter
        (fun d => d.region == r && d.indexTcpp.isSome) =
      acc.filter (fun d => d.region == r && d.indexTcpp.isSome) := by
  intro rs
  induction rs with
  | nil => intro acc _; rfl
  | cons r' t ih =>
    intro acc hmem
    have hne : r' ≠ r := fun h => hmem (h ▸ List.mem_cons_self r' t)
    have hnt : r ∉ t := fun h => hmem (List.mem_cons_of_mem r' h)
    rw [List.foldl_cons, ih _ hnt,
      cutoffSelectRegion_filter_idx_ne brief acc r' r hne]

theorem jsSliceTo_of_nonneg {k : ℤ} (hk : 0 ≤ k) (l : List α) :
    jsSliceTo k l = l.take k.toNat := by
  unfold jsSliceTo
  rw [if_pos hk]

/-- A region with no indexed channel is skipped (`continue`). -/
theorem cutoffSelectRegion_of_empty {brief : BriefData} {acc : List ChannelData}
    {r : String}
    (h : acc.filter (fun d => d.region == r && d.indexTcpp.isSome) = []) :
    cutoffSelectRegion brief acc r = acc := by
  simp [cutoffSelectRegion, h]

/-- The cutoff step, rewritten over the indexed channels of the input. -/
theorem cutoffSelectRegion_of_ne_empty {brief : BriefData} {acc : List ChannelData}
    {r : String} {w : List ChannelData}
    (hw : acc.filter (fun d => d.region == r && d.indexTcpp.isSome) = w)
    (hne : w ≠ []) :
    cutoffSelectRegion brief acc r =
      acc.map (cutoffMark r
        ((jsSliceTo
            ⌈(w.length : ℚ) *
              ((((brief.find r).bind (fun rb => rb.expensiveChannelCutoff)).getD
                  20) / 100)⌉
            (w.mergeSort idxDescLE)).map (fun d => d.channel))) := by
  have hcond : ¬ (w.isEmpty = true) := by simp [List.isEmpty_iff, hne]
  simp only [cutoffSelectRegion, hw]
  rw [if_neg hcond]

/-- **C4.** For the cutoff-based (non-Natural) systematic variants,
`generateSingleSplit` first runs the per-region cutoff selection and then
optimizes; for every region of the brief (with a non-negative configured
cutoff, distinct channel names among the region's indexed channels, and
all channels initially unselected as built), the selection ranks the
region's `N` channels having a relative cost index descending by that
index and the initially excluded channels of the region are exactly the
top `⌈N · cutoff% / 100⌉` ranked names together with every channel whose
cost index is undefined; all other channels of the region start selected. -/
theorem claim_C4 (brief : BriefData) (data : List ChannelData)
    (weightingLogic : String) (applyLimits : Bool) (r : String)
    (hlog : weightingLogic ≠ "Natural")
    (hmem : r ∈ brief.regions) (hnodup : brief.regions.Nodup)
    (hcut : 0 ≤ ((((brief.find r).bind
      (fun rb => rb.expensiveChannelCutoff)).getD 20 : ℚ)))
    (hnames : ((cutoffWithIdx data r).map (fun d => d.channel)).Nodup)
    (hinit : ∀ d ∈ data, d.region = r → d.selected = false) :
    generateSingleSplit data brief weightingLogic applyLimits =
      optimizeSplit (brief.regions.foldl (cutoffSelectRegion brief) data) brief
        weightingLogic applyLimits none ∧
    (cutoffRanking data r).Perm (cutoffWithIdx data r) ∧
    (cutoffRanking data r).Pairwise
      (fun a b => orZero b.indexTcpp ≤ orZero a.indexTcpp) ∧
    (∀ d ∈ brief.regions.foldl (cutoffSelectRegion brief) data, d.region = r →
      (d.indexTcpp = none → d.selected = false) ∧
      (d.indexTcpp.isSome = true →
        (d.selected = true ↔ d.channel ∉ cutoffTopNames brief data r))) ∧
    (∀ d0 ∈ cutoffWithIdx data r,
      (d0.channel ∈ cutoffTopNames brief data r ↔
        d0 ∈ (cutoffRanking data r).take (cutoffCount brief data r))) := by
  have hb : (weightingLogic != "Natural") = true := bne_iff_ne.mpr hlog
  have h1 : generateSingleSplit data brief weightingLogic applyLimits =
      optimizeSplit (brief.regions.foldl (cutoffSelectRegion brief) data) brief
        weightingLogic applyLimits none := by
    simp only [generateSingleSplit, hb, if_true]
  have hperm : (cutoffRanking data r).Perm (cutoffWithIdx data r) :=
    List.mergeSort_perm (cutoffWithIdx data r) idxDescLE
  have htrans : ∀ (a b c : ChannelData),
      idxDescLE a b → idxDescLE b c → idxDescLE a c := by
    intro a b c hab hbc
    simp only [idxDescLE, decide_eq_true_eq] at hab hbc ⊢
    exact le_trans hbc hab
  have htotal : ∀ (a b : ChannelData), idxDescLE a b || idxDescLE b a := by
    intro a b
    simp only [idxDescLE, Bool.or_eq_true, decide_eq_true_eq]
    exact le_total (orZero b.indexTcpp) (orZero a.indexTcpp)
  have hsorted0 := List.sorted_mergeSort htrans htotal (cutoffWithIdx data r)
  have hsorted : (cutoffRanking data r).Pairwise
      (fun a b => orZero b.indexTcpp ≤ orZero a.indexTcpp) := by
    refine List.Pairwise.imp ?_ hsorted0
    intro a b h
    simpa [idxDescLE] using h
  rcases List.append_of_mem hmem with ⟨pre, post, hsplitr⟩
  have hnd : (pre ++ r :: post).Nodup := hsplitr ▸ hnodup
  have hrpre : r ∉ pre :=
    fun h => (List.nodup_append.mp hnd).2.2 h (List.mem_cons_self r post)
  have hrpost : r ∉ post := (List.nodup_cons.mp (List.nodup_append.mp hnd).2.1).1
  refine ⟨h1, hperm, hsorted, ?_, ?_⟩
  · intro d hd hdr
    rw [hsplitr, List.foldl_append, List.foldl_cons] at hd
    by_cases hW : cutoffWithIdx data r = []
    · have hstep : cutoffSelectRegion brief
          (pre.foldl (cutoffSelectRegion brief) data) r =
          pre.foldl (cutoffSelectRegion brief) data :=
        cutoffSelectRegion_of_empty
          ((cutoffFold_filter_idx_not_mem brief r pre data hrpre).trans
            ((cutoffWithIdx_eq data r).symm.trans hW))
      rw [hstep] at hd
      constructor
      · intro _
        have hdm : d ∈ (pre.foldl (cutoffSelectRegion brief) data).filter
            (fun x => x.region == r) := by
          rw [← cutoffFold_filter_not_mem brief r post _ hrpost]
          exact List.mem_filter.mpr ⟨hd, by simp [hdr]⟩
        rw [cutoffFold_filter_not_mem brief r pre data hrpre] at hdm
        exact hinit d (List.mem_filter.mp hdm).1 hdr
      · intro hsome
        exfalso
        have hdm : d ∈ (pre.foldl (cutoffSelectRegion brief) data).filter
            (fun x => x.region == r && x.indexTcpp.isSome) := by
          rw [← cutoffFold_filter_idx_not_mem brief r post _ hrpost]
          exact List.mem_filter.mpr ⟨hd, by simp [hdr, hsome]⟩
        rw [cutoffFold_filter_idx_not_mem brief r pre data hrpre,
          ← cutoffWithIdx_eq, hW] at hdm
        cases hdm
    · have hstep := @cutoffSelectRegion_of_ne_empty brief _ r _
        (cutoffFold_filter_idx_not_mem brief r pre data hrpre)
        (fun h => hW ((cutoffWithIdx_eq data r).trans h))
      have hk : (0 : ℤ) ≤
          ⌈((data.filter (fun x => x.region == r && x.indexTcpp.isSome)).length :
              ℚ) * ((((brief.find r).bind
              (fun rb => rb.expensiveChannelCutoff)).getD 20) / 100)⌉ :=
        Int.ceil_nonneg (mul_nonneg (Nat.cast_nonneg _)
          (div_nonneg hcut (by norm_num)))
      rw [jsSliceTo_of_nonneg hk] at hstep
      have hTN : ((((data.filter
          (fun x => x.region == r && x.indexTcpp.isSome)).mergeSort
            idxDescLE).take
          (⌈((data.filter
              (fun x => x.region == r && x.indexTcpp.isSome)).length : ℚ) *
            ((((brief.find r).bind
              (fun rb => rb.expensiveChannelCutoff)).getD 20) / 100)⌉).toNat).map
          (fun d => d.channel)) = cutoffTopNames brief data r := rfl
      rw [hTN] at hstep
      have hdm : d ∈ (cutoffSelectRegion brief
          (pre.foldl (cutoffSelectRegion brief) data) r).filter
          (fun x => x.region == r) := by
        rw [← cutoffFold_filter_not_mem brief r post _ hrpost]
        exact List.mem_filter.mpr ⟨hd, by simp [hdr]⟩
      have hdm2 : d ∈ (pre.foldl (cutoffSelectRegion brief) data).map
          (cutoffMark r (cutoffTopNames brief data r)) := by
        rw [← hstep]
        exact (List.mem_filter.mp hdm).1
      rcases List.mem_map.mp hdm2 with ⟨d0, hd0, hEq⟩
      subst hEq
      have hreg0 : d0.region = r := by rw [cutoffMark_region] at hdr; exact hdr
      constructor
      · intro hnone
        have hidx0 : d0.indexTcpp = none := by
          rw [cutoffMark_indexTcpp] at hnone; exact hnone
        exact cutoffMark_none_selected hreg0 hidx0
      · intro hsome
        have hidx0 : d0.indexTcpp.isSome = true := by
          rw [cutoffMark_indexTcpp] at hsome; exact hsome
        rcases Option.isSome_iff_exists.mp hidx0 with ⟨v, hv⟩
        rw [cutoffMark_channel, cutoffMark_some_selected hreg0 hv]
        have hcm := contains_eq_mem (cutoffTopNames brief data r) d0.channel
        constructor
        · intro hsel hm
          rw [Bool.not_eq_true'] at hsel
          rw [hcm.mpr hm] at hsel
          simp at hsel
        · intro hm
          rw [Bool.not_eq_true']
          cases hc : (cutoffTopNames brief data r).contains d0.channel
          · rfl
          · exact absurd (hcm.mp hc) hm
  · intro d0 hd0
    constructor
    · intro hmemTop
      rw [cutoffTopNames_eq] at hmemTop
      rcases List.mem_map.mp hmemTop with ⟨e, he, hech⟩
      have heW : e ∈ cutoffWithIdx data r :=
        hperm.mem_iff.mp (List.take_subset _ _ he)
      have hed : e = d0 := List.inj_on_of_nodup_map hnames heW hd0 hech
      exact hed ▸ he
    · intro htake
      rw [cutoffTopNames_eq]
      exact List.mem_map_of_mem (fun x => x.channel) htake

/-- A one-region brief configuring a 50% expensive-channel cutoff. -/
def brief4 : BriefData := ⟨[("r1", ⟨"ta", none, none, some 50⟩)]⟩

/-- A channel of region `r1` with cost index 1 (the most expensive). -/
def idxRecA : ChannelData :=
  { baseRec with region := "r1", channel := "a", indexTcpp := some 1 }

/-- A channel of region `r1` with cost index 1/2. -/
def idxRecB : ChannelData :=
  { baseRec with region := "r1", channel := "b", indexTcpp := some (1/2) }

/-- C4 witness: a concrete two-channel region with a 50% cutoff — selection
in the region is exactly non-membership in the excluded top names. -/
theorem claim_C4_witness :
    ((("Efficiency" : String) ≠ "Natural") ∧
      (("r1" : String) ∈ brief4.regions) ∧ brief4.regions.Nodup ∧
      (0 ≤ ((((brief4.find "r1").bind
        (fun rb => rb.expensiveChannelCutoff)).getD 20 : ℚ))) ∧
      ((cutoffWithIdx [idxRecA, idxRecB] "r1").map (fun d => d.channel)).Nodup ∧
      (∀ d ∈ [idxRecA, idxRecB], d.region = "r1" → d.selected = false)) ∧
    (∀ d ∈ brief4.regions.foldl (cutoffSelectRegion brief4) [idxRecA, idxRecB],
      d.region = "r1" →
      (d.indexTcpp = none → d.selected = false) ∧
      (d.indexTcpp.isSome = true →
        (d.selected = true ↔
          d.channel ∉ cutoffTopNames brief4 [idxRecA, idxRecB] "r1"))) := by
  have hlog : ("Efficiency" : String) ≠ "Natural" := by decide
  have hmem : ("r1" : String) ∈ brief4.regions := by
    simp [brief4, BriefData.regions]
  have hnodup : brief4.regions.Nodup := by
    simp [brief4, BriefData.regions]
  have hcut : 0 ≤ ((((brief4.find "r1").bind
      (fun rb => rb.expensiveChannelCutoff)).getD 20 : ℚ)) := by
    repeat first
      | simp [brief4, BriefData.find]
      | norm_num [brief4, BriefData.find]
  have hnames : ((cutoffWithIdx [idxRecA, idxRecB] "r1").map
      (fun d => d.channel)).Nodup := by
    simp [cutoffWithIdx, idxRecA, idxRecB, baseRec]
  have hinit : ∀ d ∈ [idxRecA, idxRecB], d.region = "r1" → d.selected = false := by
    intro d hd _
    fin_cases hd <;> rfl
  exact ⟨⟨hlog, hmem, hnodup, hcut, hnames, hinit⟩,
    (claim_C4 brief4 [idxRecA, idxRecB] "Efficiency" true "r1" hlog hmem hnodup
      hcut hnames hinit).2.2.2.1⟩

/-! ## Claim C1: regional share sums after the optimizer -/

/-- The rating assignment of one pass, as a function of the region's
selected channels only (the body of `assignRatings`). -/
def ratingFun (logic : String) (w : Option Weights) (sel : List ChannelData) :
    ChannelData → Option ℚ :=
  let avgTcpp := avgTcppOf sel
  match w with
  | some ws =>
    if logic == "Custom" then
      let wrList := sel.map (customWrEntry avgTcpp)
      let taff := (wrList.map (·.aff)).sum
      let ttcpp := (wrList.map (·.tcpp)).sum
      let teff := (wrList.map (·.eff)).sum
      customRating ws wrList taff ttcpp teff
    else weightedRatingFor logic avgTcpp
  | none => weightedRatingFor logic avgTcpp

theorem assignRatings_eq (logic : String) (w : Option Weights) (r : String)
    (l : List ChannelData) :
    assignRatings logic w r l =
      l.map (updWR r (ratingFun logic w (selectedInRegion l r))) := by
  unfold assignRatings ratingFun
  cases w with
  | none => rfl
  | some ws =>
    by_cases hc : (logic == "Custom") = true
    · simp only [if_pos hc]
    · simp only [if_neg hc]

theorem updWR_region (r : String) (f : ChannelData → Option ℚ) (d : ChannelData) :
    (updWR r f d).region = d.region := by
  unfold updWR; split <;> rfl

theorem updWR_selected (r : String) (f : ChannelData → Option ℚ)
    (d : ChannelData) : (updWR r f d).selected = d.selected := by
  unfold updWR; split <;> rfl

theorem updWR_not_sel {r : String} {f : ChannelData → Option ℚ}
    {d : ChannelData} (h : (d.region == r && d.selected) = false) :
    updWR r f d = d := by
  unfold updWR
  rw [if_neg (by rw [h]; exact Bool.false_ne_true)]

theorem updWR_sel {r : String} {f : ChannelData → Option ℚ} {d : ChannelData}
    (h : (d.region == r && d.selected) = true) :
    updWR r f d = { d with weightedRating := f d } := by
  unfold updWR
  rw [if_pos h]

theorem normFun_region (r : String) (t : ℚ) (d : ChannelData) :
    (normFun r t d).region = d.region := by
  unfold normFun; repeat' split
  all_goals rfl

theorem normFun_selected (r : String) (t : ℚ) (d : ChannelData) :
    (normFun r t d).selected = d.selected := by
  unfold normFun; repeat' split
  all_goals rfl

theorem normFun_of_other_region {r : String} {t : ℚ} {d : ChannelData}
    (h : d.region ≠ r) : normFun r t d = d := by
  unfold normFun
  rw [if_neg (by simpa using h)]

theorem normFun_sel {r : String} {t : ℚ} {d : ChannelData}
    (hreg : (d.region == r) = true) (hsel : d.selected = true) :
    normFun r t d = { d with share := some (orZero d.weightedRating / t) } := by
  unfold normFun
  rw [if_pos hreg, if_pos hsel]

theorem floorFun_region (brief : BriefData) (d : ChannelData) :
    (floorFun brief d).region = d.region := by
  unfold floorFun; split <;> rfl

theorem floorFun_sel_le {brief : BriefData} {d : ChannelData}
    (h : (floorFun brief d).selected = true) : d.selected = true := by
  have h2 := (floorFun_selected_sound brief d h).1
  rw [h2] at h
  exact h

theorem floorFun_of_not_selected {brief : BriefData} {d : ChannelData}
    (h : d.selected = false) : floorFun brief d = d := by
  have hv : floorViolation brief d = false := by
    unfold floorViolation
    cases hf : brief.find d.region <;> simp [h]
  unfold floorFun
  rw [if_neg (by rw [hv]; exact Bool.false_ne_true)]

/-- Splitting a conjunctive filter into two successive filters. -/
theorem filter_and_split (p q : ChannelData → Bool) :
    ∀ l : List ChannelData,
    l.filter (fun d => p d && q d) = (l.filter p).filter q := by
  intro l
  induction l with
  | nil => rfl
  | cons a t ih =>
    cases hp : p a <;> cases hq : q a <;>
      simp [List.filter_cons, hp, hq, ih]

/-- A `p`-preserving map commutes with the `p`-filter. -/
theorem filter_map_comm {p : ChannelData → Bool}
    {f : ChannelData → ChannelData} (h : ∀ d, p (f d) = p d)
    (l : List ChannelData) : (l.map f).filter p = (l.filter p).map f := by
  rw [List.filter_map]
  have hpf : (p ∘ f) = p := funext h
  rw [hpf]

theorem sumSelShares_filter2 (r : String) (l : List ChannelData) :
    sumSelShares r l =
      (((l.filter (fun d => d.region == r)).filter (fun d => d.selected)).map
        (fun d => orZero d.share)).sum := by
  unfold sumSelShares
  rw [filter_and_split]

theorem sumSelShares_congr (r : String) {l₁ l₂ : List ChannelData}
    (h : l₁.filter (fun d => d.region == r) = l₂.filter (fun d => d.region == r)) :
    sumSelShares r l₁ = sumSelShares r l₂ := by
  rw [sumSelShares_filter2, sumSelShares_filter2, h]

theorem selectedInRegion_filter2 (r : String) (l : List ChannelData) :
    selectedInRegion l r =
      (l.filter (fun d => d.region == r)).filter (fun d => d.selected) := by
  unfold selectedInRegion
  rw [filter_and_split]

theorem selectedInRegion_congr (r : String) {l₁ l₂ : List ChannelData}
    (h : l₁.filter (fun d => d.region == r) = l₂.filter (fun d => d.region == r)) :
    selectedInRegion l₁ r = selectedInRegion l₂ r := by
  rw [selectedInRegion_filter2, selectedInRegion_filter2, h]

theorem sumSelOrbital_filter2 (r : String) (l : List ChannelData) :
    sumSelOrbital r l =
      ((((l.filter (fun d => d.region == r)).filter (fun d => d.selected)).filter
          (fun d => isOrbitalName d.channel)).map (fun d => orZero d.share)).sum := by
  unfold sumSelOrbital
  rw [filter_and_split (fun d => d.region == r && d.selected)
    (fun d => isOrbitalName d.channel), filter_and_split]

theorem sumSelOrbital_congr (r : String) {l₁ l₂ : List ChannelData}
    (h : l₁.filter (fun d => d.region == r) = l₂.filter (fun d => d.region == r)) :
    sumSelOrbital r l₁ = sumSelOrbital r l₂ := by
  rw [sumSelOrbital_filter2, sumSelOrbital_filter2, h]

theorem sumSelNetwork_filter2 (r : String) (l : List ChannelData) :
    sumSelNetwork r l =
      ((((l.filter (fun d => d.region == r)).filter (fun d => d.selected)).filter
          (fun d => !isOrbitalName d.channel)).map (fun d => orZero d.share)).sum := by
  unfold sumSelNetwork
  rw [filter_and_split (fun d => d.region == r && d.selected)
    (fun d => !isOrbitalName d.channel), filter_and_split]

theorem sumSelNetwork_congr (r : String) {l₁ l₂ : List ChannelData}
    (h : l₁.filter (fun d => d.region == r) = l₂.filter (fun d => d.region == r)) :
    sumSelNetwork r l₁ = sumSelNetwork r l₂ := by
  rw [sumSelNetwork_filter2, sumSelNetwork_filter2, h]

theorem sum_map_div (l : List ChannelData) (g : ChannelData → ℚ) (c : ℚ) :
    (l.map (fun d => g d / c)).sum = (l.map g).sum / c := by
  induction l with
  | nil => simp
  | cons a t ih => simp [ih, add_div]

/-- A rating/normalisation step of another region leaves this region's
records untouched. -/
theorem regionPass_filter_ne (logic : String) (w : Option Weights)
    (l : List ChannelData) (r' r : String) (hne : r' ≠ r) :
    (regionPass logic w l r').filter (fun d => d.region == r) =
      l.filter (fun d => d.region == r) := by
  unfold regionPass
  split
  · rfl
  · have hA : (assignRatings logic w r' l).filter (fun d => d.region == r) =
        l.filter (fun d => d.region == r) := by
      rw [assignRatings_eq]
      refine filter_map_eq_filter (fun d => ?_) (fun d hd => ?_) l
      · simp only [updWR_region]
      · refine updWR_not_sel ?_
        have hdr : d.region = r := eq_of_beq hd
        have : (d.region == r') = false := by
          simp only [beq_eq_false_iff_ne, ne_eq]
          rw [hdr]
          exact fun habs => hne habs.symm
        rw [this, Bool.false_and]
    unfold normalizeShares
    split
    · rw [← hA]
      refine filter_map_eq_filter (fun d => ?_) (fun d hd => ?_) _
      · simp only [normFun_region]
      · refine normFun_of_other_region ?_
        have hdr : d.region = r := eq_of_beq hd
        rw [hdr]
        exact fun habs => hne habs.symm
    · exact hA

theorem regionFold_filter_not_mem (logic : String) (w : Option Weights)
    (r : String) : ∀ (rs : List String) (l : List ChannelData), r ∉ rs →
    (rs.foldl (regionPass logic w) l).filter (fun d => d.region == r) =
      l.filter (fun d => d.region == r) := by
  intro rs
  induction rs with
  | nil => intro l _; rfl
  | cons r' t ih =>
    intro l hmem
    have hne : r' ≠ r := fun h => hmem (h ▸ List.mem_cons_self r' t)
    have hnt : r ∉ t := fun h => hmem (List.mem_cons_of_mem r' h)
    rw [List.foldl_cons, ih _ hnt, regionPass_filter_ne logic w l r' r hne]

/-- The selected channels of the region after rating assignment are the
previously selected ones, with the new rating written in. -/
theorem selectedInRegion_assign (logic : String) (w : Option Weights)
    (r : String) (l : List ChannelData) :
    selectedInRegion (assignRatings logic w r l) r =
      (selectedInRegion l r).map
        (updWR r (ratingFun logic w (selectedInRegion l r))) := by
  rw [assignRatings_eq]
  unfold selectedInRegion
  refine filter_map_comm (fun d => ?_) l
  simp only [updWR_region, updWR_selected]

/-- The total weighted rating after assignment, as a sum over the previously
selected channels of the new ratings. -/
theorem normTotal_assign (logic : String) (w : Option Weights) (r : String)
    (l : List ChannelData) :
    normTotal r (assignRatings logic w r l) =
      ((selectedInRegion l r).map (fun d =>
        orZero (ratingFun logic w (selectedInRegion l r) d))).sum := by
  unfold normTotal
  rw [selectedInRegion_assign, List.map_map]
  refine congrArg List.sum (List.map_congr_left fun d hd => ?_)
  have hsel : (d.region == r && d.selected) = true := by
    have := List.of_mem_filter hd
    exact this
  simp only [Function.comp_apply, updWR_sel hsel]

theorem normTotal_assign_congr (logic : String) (w : Option Weights)
    (r : String) {l₁ l₂ : List ChannelData}
    (h : selectedInRegion l₁ r = selectedInRegion l₂ r) :
    normTotal r (assignRatings logic w r l₁) =
      normTotal r (assignRatings logic w r l₂) := by
  rw [normTotal_assign, normTotal_assign, h]

/-- The regional share sum after normalisation. -/
theorem sumSelShares_map_normFun (r : String) (t : ℚ) (l : List ChannelData) :
    sumSelShares r (l.map (normFun r t)) =
      ((selectedInRegion l r).map
        (fun d => orZero d.weightedRating / t)).sum := by
  unfold sumSelShares
  rw [filter_map_comm (fun d => by
    simp only [normFun_region, normFun_selected]) l, List.map_map]
  refine congrArg List.sum (List.map_congr_left fun d hd => ?_)
  have hsel0 := List.of_mem_filter hd
  simp only [Bool.and_eq_true] at hsel0
  simp only [Function.comp_apply, normFun_sel hsel0.1 hsel0.2]
  simp [orZero]

/-- The regional share sum of a positive-total rating/normalisation step of
the region itself is exactly 1. -/
theorem regionPass_own_sum (logic : String) (w : Option Weights) (r : String)
    (l : List ChannelData)
    (hne : (selectedInRegion l r).isEmpty = false)
    (hpos : 0 < normTotal r (assignRatings logic w r l)) :
    sumSelShares r (regionPass logic w l r) = 1 := by
  unfold regionPass
  rw [if_neg (by rw [hne]; exact Bool.false_ne_true)]
  unfold normalizeShares
  rw [if_pos hpos, sumSelShares_map_normFun, selectedInRegion_assign]
  rw [List.map_map]
  have he : ((selectedInRegion l r).map ((fun d => orZero d.weightedRating /
      normTotal r (assignRatings logic w r l)) ∘
      updWR r (ratingFun logic w (selectedInRegion l r)))).sum =
      ((selectedInRegion l r).map (fun d =>
        orZero (ratingFun logic w (selectedInRegion l r) d) /
          normTotal r (assignRatings logic w r l))).sum := by
    refine congrArg List.sum (List.map_congr_left fun d hd => ?_)
    have hsel := List.of_mem_filter hd
    simp only [Function.comp_apply, updWR_sel hsel]
  rw [he, sum_map_div, ← normTotal_assign]
  exact div_self (ne_of_gt hpos)

/-- A region- and selection-preserving map keeps the region's selected
count. -/
theorem countP_sel_filter_map {f : ChannelData → ChannelData}
    (hreg : ∀ d, (f d).region = d.region)
    (hsel : ∀ d, (f d).selected = d.selected) (r : String)
    (l : List ChannelData) :
    ((l.map f).filter (fun d => d.region == r)).countP (fun d => d.selected) =
      (l.filter (fun d => d.region == r)).countP (fun d => d.selected) := by
  rw [filter_map_comm (fun d => by simp only [hreg]) l, List.countP_map]
  have hpf : ((fun d => d.selected) ∘ f) = (fun d => d.selected) :=
    funext fun d => hsel d
  rw [hpf]

/-- A rating/normalisation step never changes which channels are selected. -/
theorem countP_sel_regionPass (logic : String) (w : Option Weights) (r : String)
    (l : List ChannelData) :
    ((regionPass logic w l r).filter (fun d => d.region == r)).countP
        (fun d => d.selected) =
      (l.filter (fun d => d.region == r)).countP (fun d => d.selected) := by
  unfold regionPass
  split
  · rfl
  · rw [assignRatings_eq]
    unfold normalizeShares
    split
    · rw [countP_sel_filter_map (normFun_region r _) (normFun_selected r _) r _,
        countP_sel_filter_map (updWR_region r _) (updWR_selected r _) r l]
    · rw [countP_sel_filter_map (updWR_region r _) (updWR_selected r _) r l]

/-- The floor pass can only deselect channels. -/
theorem countP_floor_le (brief : BriefData) :
    ∀ l : List ChannelData,
    (l.map (floorFun brief)).countP (fun d => d.selected) ≤
      l.countP (fun d => d.selected) := by
  intro l
  induction l with
  | nil => exact le_rfl
  | cons a t ih =>
    rw [List.map_cons, List.countP_cons, List.countP_cons]
    cases hfa : (floorFun brief a).selected
    · rw [if_neg Bool.false_ne_true]
      cases ha : a.selected
      · rw [if_neg Bool.false_ne_true]
        omega
      · rw [if_pos rfl]
        omega
    · have ha : a.selected = true := floorFun_sel_le hfa
      rw [ha, if_pos rfl]
      omega

/-- A floor pass that deselects nothing (the selected count is unchanged)
is the identity. -/
theorem map_floor_eq_of_countP (brief : BriefData) :
    ∀ l : List ChannelData,
    (l.map (floorFun brief)).countP (fun d => d.selected) =
      l.countP (fun d => d.selected) →
    l.map (floorFun brief) = l := by
  intro l
  induction l with
  | nil => intro _; rfl
  | cons a t ih =>
    intro h
    rw [List.map_cons, List.countP_cons, List.countP_cons] at h
    have hle := countP_floor_le brief t
    rw [List.map_cons]
    cases ha : a.selected
    · have hfaeq : floorFun brief a = a := floorFun_of_not_selected ha
      rw [hfaeq] at h ⊢
      rw [ha] at h
      simp only [if_neg Bool.false_ne_true, Nat.add_zero] at h
      rw [ih h]
    · cases hfa : (floorFun brief a).selected
      · exfalso
        rw [hfa, ha] at h
        rw [if_neg Bool.false_ne_true, if_pos rfl] at h
        omega
      · have hfaeq : floorFun brief a = a := (floorFun_selected_sound brief a hfa).1
        rw [hfaeq] at h ⊢
        rw [ha] at h
        simp only [if_pos (rfl : true = true)] at h
        have ht : (t.map (floorFun brief)).countP (fun d => d.selected) =
            t.countP (fun d => d.selected) := by omega
        rw [ih ht]

/-- The orbital-cap step of the region preserves the region's share sum,
given a non-negative cap whose violation implies a positive selected
network total. -/
theorem orbitalCapRegion_sum_own (brief : BriefData) (l : List ChannelData)
    (r : String)
    (hcap : ∀ cap, capOf brief r = some cap → 0 ≤ cap ∧
      (cap / 100 < sumSelOrbital r l → 0 < sumSelNetwork r l)) :
    sumSelShares r (orbitalCapRegion brief l r) = sumSelShares r l := by
  cases hfind : capOf brief r with
  | none => unfold orbitalCapRegion; rw [hfind]
  | some cap =>
    rcases hcap cap hfind with ⟨hc0, hnet⟩
    rw [orbitalCapRegion_eq_ite brief l r cap hfind]
    split
    · rename_i hex
      have htn : 0 < sumSelNetwork r l := hnet hex
      have hto : 0 < sumSelOrbital r l :=
        lt_of_le_of_lt (div_nonneg hc0 (by norm_num)) hex
      rw [sumSelShares_split, sumSelOrbital_map_capAdjust,
        sumSelNetwork_map_capAdjust r _ _ _ _ htn, sumSelShares_split]
      field_simp
      ring
    · rfl

/-- A fixed point of the full optimisation pass has, in every region with a
positive total rating on its selected channels, a regional share sum of
exactly 1 (or 0 when nothing is selected). -/
theorem optFix_region_sum (brief : BriefData) (logic : String)
    (w : Option Weights) (al : Bool) (r : String) (hmem : r ∈ brief.regions)
    (hnodup : brief.regions.Nodup) (mid : List ChannelData)
    (hfix : optPassData brief logic w al mid = mid)
    (hpos : selectedInRegion mid r ≠ [] →
      0 < normTotal r (assignRatings logic w r mid)) :
    sumSelShares r mid = 0 ∨ sumSelShares r mid = 1 := by
  by_cases hE : selectedInRegion mid r = []
  · left
    calc sumSelShares r mid
        = ((selectedInRegion mid r).map (fun d => orZero d.share)).sum := rfl
      _ = 0 := by rw [hE]; rfl
  · right
    rcases List.append_of_mem hmem with ⟨pre, post, hsplitr⟩
    have hnd : (pre ++ r :: post).Nodup := hsplitr ▸ hnodup
    have hrpre : r ∉ pre :=
      fun h => (List.nodup_append.mp hnd).2.2 h (List.mem_cons_self r post)
    have hrpost : r ∉ post := (List.nodup_cons.mp (List.nodup_append.mp hnd).2.1).1
    have haccf : (pre.foldl (regionPass logic w) mid).filter
        (fun d => d.region == r) = mid.filter (fun d => d.region == r) :=
      regionFold_filter_not_mem logic w r pre mid hrpre
    have hselacc : selectedInRegion (pre.foldl (regionPass logic w) mid) r =
        selectedInRegion mid r := selectedInRegion_congr r haccf
    have hmid2 : brief.regions.foldl (regionPass logic w) mid =
        post.foldl (regionPass logic w)
          (regionPass logic w (pre.foldl (regionPass logic w) mid) r) := by
      rw [hsplitr, List.foldl_append, List.foldl_cons]
    have hpostf : (post.foldl (regionPass logic w)
          (regionPass logic w (pre.foldl (regionPass logic w) mid) r)).filter
          (fun d => d.region == r) =
        (regionPass logic w (pre.foldl (regionPass logic w) mid) r).filter
          (fun d => d.region == r) :=
      regionFold_filter_not_mem logic w r post _ hrpost
    have hneAcc : (selectedInRegion (pre.foldl (regionPass logic w) mid) r).isEmpty
        = false := by
      rw [hselacc]
      cases hq : (selectedInRegion mid r).isEmpty
      · rfl
      · exact absurd (List.isEmpty_iff.mp hq) hE
    have hposAcc : 0 < normTotal r (assignRatings logic w r
        (pre.foldl (regionPass logic w) mid)) := by
      rw [normTotal_assign_congr logic w r hselacc]
      exact hpos hE
    have h1 : sumSelShares r (regionPass logic w
        (pre.foldl (regionPass logic w) mid) r) = 1 :=
      regionPass_own_sum logic w r _ hneAcc hposAcc
    have hsum2 : sumSelShares r (brief.regions.foldl (regionPass logic w) mid)
        = 1 := by
      rw [hmid2]
      exact (sumSelShares_congr r hpostf).trans h1
    cases al with
    | false =>
      have hfold : brief.regions.foldl (regionPass logic w) mid = mid := hfix
      rw [← hfold]
      exact hsum2
    | true =>
      have hfloor : floorPass brief
          (brief.regions.foldl (regionPass logic w) mid) = mid := hfix
      have hmidf : mid.filter (fun d => d.region == r) =
          ((brief.regions.foldl (regionPass logic w) mid).filter
            (fun d => d.region == r)).map (floorFun brief) := by
        calc mid.filter (fun d => d.region == r)
            = (floorPass brief (brief.regions.foldl (regionPass logic w)
                mid)).filter (fun d => d.region == r) := by rw [hfloor]
          _ = ((brief.regions.foldl (regionPass logic w) mid).filter
                (fun d => d.region == r)).map (floorFun brief) :=
            filter_map_comm (fun d => by simp only [floorFun_region]) _
      have hc2 : ((brief.regions.foldl (regionPass logic w) mid).filter
            (fun d => d.region == r)).countP (fun d => d.selected) =
          (mid.filter (fun d => d.region == r)).countP (fun d => d.selected) := by
        rw [hmid2, hpostf, countP_sel_regionPass, haccf]
      have hcnt : ((((brief.regions.foldl (regionPass logic w) mid).filter
            (fun d => d.region == r)).map (floorFun brief)).countP
            (fun d => d.selected)) =
          (((brief.regions.foldl (regionPass logic w) mid).filter
            (fun d => d.region == r)).countP (fun d => d.selected)) := by
        rw [← hmidf, hc2]
      have hkey := map_floor_eq_of_countP brief _ hcnt
      have hfilters : mid.filter (fun d => d.region == r) =
          (brief.regions.foldl (regionPass logic w) mid).filter
            (fun d => d.region == r) := by
        rw [hmidf, hkey]
      rw [sumSelShares_congr r hfilters]
      exact hsum2

/-- **C1 (amended).** For every region of the brief and every optimizer run
(hence every produced split variant): provided the iterative pass reached a
fixed point within its 20 iterations, the region's selected channels (when
any) have a positive total weighted rating, and a configured orbital cap is
non-negative and — when exceeded — leaves a positive selected network
total, the sum of `share` over the region's selected records of the
returned split is exactly 0 (nothing selected) or exactly 1. -/
theorem claim_C1_amended (data : List ChannelData) (brief : BriefData)
    (logic : String) (al : Bool) (w : Option Weights) (r : String)
    (hmem : r ∈ brief.regions) (hnodup : brief.regions.Nodup)
    (hfix : optPassData brief logic w al (optLoop brief logic w al 20 data) =
      optLoop brief logic w al 20 data)
    (hpos : selectedInRegion (optLoop brief logic w al 20 data) r ≠ [] →
      0 < normTotal r (assignRatings logic w r
        (optLoop brief logic w al 20 data)))
    (hcap : ∀ cap, capOf brief r = some cap → 0 ≤ cap ∧
      (cap / 100 < sumSelOrbital r (optLoop brief logic w al 20 data) →
        0 < sumSelNetwork r (optLoop brief logic w al 20 data))) :
    sumSelShares r (optimizeSplit data brief logic al w) = 0 ∨
      sumSelShares r (optimizeSplit data brief logic al w) = 1 := by
  cases al with
  | false =>
    have hmid := optFix_region_sum brief logic w false r hmem hnodup _ hfix hpos
    have hred : sumSelShares r (optimizeSplit data brief logic false w) =
        sumSelShares r (optLoop brief logic w false 20 data) := by
      unfold optimizeSplit
      rw [sumSelShares_of_perm r (sortRecords_perm _), sumSelShares_finalizePass]
      rfl
    rw [hred]
    exact hmid
  | true =>
    have hmid := optFix_region_sum brief logic w true r hmem hnodup _ hfix hpos
    rcases List.append_of_mem hmem with ⟨pre, post, hsplitr⟩
    have hnd : (pre ++ r :: post).Nodup := hsplitr ▸ hnodup
    have hrpre : r ∉ pre :=
      fun h => (List.nodup_append.mp hnd).2.2 h (List.mem_cons_self r post)
    have hrpost : r ∉ post := (List.nodup_cons.mp (List.nodup_append.mp hnd).2.1).1
    have h1 := orbitalCapFold_sums_not_mem brief r pre
      (optLoop brief logic w true 20 data) hrpre
    have hnet : sumSelNetwork r (pre.foldl (orbitalCapRegion brief)
        (optLoop brief logic w true 20 data)) =
        sumSelNetwork r (optLoop brief logic w true 20 data) := by
      have e1 := sumSelShares_split r (pre.foldl (orbitalCapRegion brief)
        (optLoop brief logic w true 20 data))
      have e2 := sumSelShares_split r (optLoop brief logic w true 20 data)
      linarith [h1.1, h1.2]
    have hcap' : ∀ cap, capOf brief r = some cap → 0 ≤ cap ∧
        (cap / 100 < sumSelOrbital r (pre.foldl (orbitalCapRegion brief)
          (optLoop brief logic w true 20 data)) →
          0 < sumSelNetwork r (pre.foldl (orbitalCapRegion brief)
            (optLoop brief logic w true 20 data))) := by
      intro cap hc
      rcases hcap cap hc with ⟨h0, himp⟩
      refine ⟨h0, fun hlt => ?_⟩
      rw [hnet]
      refine himp ?_
      rw [← h1.1]
      exact hlt
    have hstep := orbitalCapRegion_sum_own brief (pre.foldl (orbitalCapRegion brief)
      (optLoop brief logic w true 20 data)) r hcap'
    have h2 := (orbitalCapFold_sums_not_mem brief r post
      (orbitalCapRegion brief (pre.foldl (orbitalCapRegion brief)
        (optLoop brief logic w true 20 data)) r) hrpost).2
    have hfoldeq : orbitalCapPass brief (optLoop brief logic w true 20 data) =
        post.foldl (orbitalCapRegion brief)
          (orbitalCapRegion brief (pre.foldl (orbitalCapRegion brief)
            (optLoop brief logic w true 20 data)) r) := by
      unfold orbitalCapPass
      rw [hsplitr, List.foldl_append, List.foldl_cons]
    have hcappass : sumSelShares r (orbitalCapPass brief
        (optLoop brief logic w true 20 data)) =
        sumSelShares r (optLoop brief logic w true 20 data) := by
      rw [hfoldeq, h2, hstep, h1.2]
    have hred : sumSelShares r (optimizeSplit data brief logic true w) =
        sumSelShares r (orbitalCapPass brief
          (optLoop brief logic w true 20 data)) := by
      unfold optimizeSplit
      rw [sumSelShares_of_perm r (sortRecords_perm _), sumSelShares_finalizePass]
      rfl
    rw [hred, hcappass]
    exact hmid

/-- A one-region brief configuring a 50% orbital cap and a 0% expensive
cutoff. -/
def briefOrb : BriefData := ⟨[("r1", ⟨"ta", none, some 50, some 0⟩)]⟩

/-- A single orbital channel of region `r1` (its name contains `" - 0"`),
with rating 10 and TCPP 5. -/
def capRec : ChannelData :=
  { baseRec with region := "r1", channel := "c - 0", tvrTa := some 10, tcpp := some 5, indexTcpp := some 1 }

/-- The channel after the cutoff selection (selected, nothing excluded). -/
def capRecSel : ChannelData := { capRec with selected := true }

/-- The channel after the optimisation loop (rating 10, share 1). -/
def capRecNorm : ChannelData := { capRecSel with weightedRating := some 10, share := some 1 }

/-- The channel after the orbital-cap pass (share halved, nothing
redistributed). -/
def capRecCapped : ChannelData := { capRecNorm with share := some (1 / 2), comment := some (.orbitalAdjusted 50) }

set_option maxHeartbeats 1000000 in
/-- The cutoff selection of the counterexample run. -/
theorem capRec_cutoff : briefOrb.regions.foldl (cutoffSelectRegion briefOrb)
    [capRec] = [capRecSel] := by
  repeat first
    | simp [cutoffSelectRegion, cutoffMark, idxDescLE, jsSliceTo,
        List.mergeSort, isOrbitalName, jsIncludes, containsChars,
        startsWithChars, orZero, BriefData.regions, BriefData.find, briefOrb,
        capRec, capRecSel, baseRec]
    | norm_num [cutoffSelectRegion, cutoffMark, idxDescLE, jsSliceTo,
        List.mergeSort, isOrbitalName, jsIncludes, containsChars,
        startsWithChars, orZero, BriefData.regions, BriefData.find, briefOrb,
        capRec, capRecSel, baseRec]

set_option maxHeartbeats 1000000 in
/-- The first pass of the counterexample run deselects nothing. -/
theorem capRec_changed : optPassChanged briefOrb "TCPP" none true [capRecSel] =
    false := by
  repeat first
    | simp [optPassChanged, regionPass,
        selectedInRegion, assignRatings, updWR, weightedRatingFor, avgTcppOf,
        normalizeShares, normTotal, normFun, floorPass, floorFun,
        floorViolation, minShareOf, orZero, orOne, BriefData.regions,
        BriefData.find, briefOrb, capRec, capRecSel, capRecNorm, baseRec]
    | norm_num [optPassChanged, regionPass,
        selectedInRegion, assignRatings, updWR, weightedRatingFor, avgTcppOf,
        normalizeShares, normTotal, normFun, floorPass, floorFun,
        floorViolation, minShareOf, orZero, orOne, BriefData.regions,
        BriefData.find, briefOrb, capRec, capRecSel, capRecNorm, baseRec]

set_option maxHeartbeats 1000000 in
/-- One pass of the counterexample run: rating 10, share 1, no floor
violation. -/
theorem capRec_pass : optPassData briefOrb "TCPP" none true [capRecSel] =
    [capRecNorm] := by
  repeat first
    | simp [optPassData, regionPass,
        selectedInRegion, assignRatings, updWR, weightedRatingFor, avgTcppOf,
        normalizeShares, normTotal, normFun, floorPass, floorFun,
        floorViolation, minShareOf, orZero, orOne, BriefData.regions,
        BriefData.find, briefOrb, capRec, capRecSel, capRecNorm, baseRec]
    | norm_num [optPassData, regionPass,
        selectedInRegion, assignRatings, updWR, weightedRatingFor, avgTcppOf,
        normalizeShares, normTotal, normFun, floorPass, floorFun,
        floorViolation, minShareOf, orZero, orOne, BriefData.regions,
        BriefData.find, briefOrb, capRec, capRecSel, capRecNorm, baseRec]

/-- The optimisation loop of the counterexample run stops after one pass. -/
theorem capRec_loop : optLoop briefOrb "TCPP" none true 20 [capRecSel] =
    [capRecNorm] := by
  have h := optLoop_of_unchanged briefOrb "TCPP" none true 19 [capRecSel]
    capRec_changed
  rw [show (20 : Nat) = 19 + 1 from rfl, h, capRec_pass]

set_option maxHeartbeats 1000000 in
/-- The orbital-cap pass of the counterexample run halves the share and
redistributes nothing. -/
theorem capRec_capped : orbitalCapPass briefOrb [capRecNorm] =
    [capRecCapped] := by
  repeat first
    | simp [orbitalCapPass, orbitalCapRegion, capOf, capAdjustRecord,
        sumSelOrbital, sumSelNetwork, isOrbitalName, jsIncludes, containsChars,
        startsWithChars, orZero, BriefData.regions, BriefData.find, briefOrb,
        capRec, capRecSel, capRecNorm, capRecCapped, baseRec]
    | norm_num [orbitalCapPass, orbitalCapRegion, capOf, capAdjustRecord,
        sumSelOrbital, sumSelNetwork, isOrbitalName, jsIncludes, containsChars,
        startsWithChars, orZero, BriefData.regions, BriefData.find, briefOrb,
        capRec, capRecSel, capRecNorm, capRecCapped, baseRec]

set_option maxHeartbeats 1000000 in
/-- C1 counterexample: a region whose only selected channel is orbital is
normalised to share 1, then the orbital-cap pass halves it and — because
the selected network total is 0 — redistributes nothing: the TCPP variant
returns a region whose selected share sum is 1/2, neither 0 nor within
1e-9 of 1. -/
theorem claim_C1_counterexample :
    sumSelShares "r1" (generateSingleSplit [capRec] briefOrb "TCPP" true) =
      1 / 2 ∧
    ¬(sumSelShares "r1" (generateSingleSplit [capRec] briefOrb "TCPP" true) = 0 ∨
      |1 - sumSelShares "r1" (generateSingleSplit [capRec] briefOrb "TCPP" true)| ≤
        1 / 1000000000) := by
  have hgen : generateSingleSplit [capRec] briefOrb "TCPP" true =
      optimizeSplit (briefOrb.regions.foldl (cutoffSelectRegion briefOrb)
        [capRec]) briefOrb "TCPP" true none := by
    have hb : (("TCPP" : String) != "Natural") = true := by simp
    simp only [generateSingleSplit, hb, if_true]
  have h : sumSelShares "r1" (generateSingleSplit [capRec] briefOrb "TCPP" true) =
      1 / 2 := by
    rw [hgen, capRec_cutoff]
    show sumSelShares "r1" (sortRecords (finalizePass (orbitalCapPass briefOrb
      (optLoop briefOrb "TCPP" none true 20 [capRecSel])))) = 1 / 2
    rw [capRec_loop, capRec_capped]
    repeat first
      | simp [sumSelShares, finalizePass, finalizeRecord, sortRecords,
          List.mergeSort, splitLE, orZero, capRec, capRecSel, capRecNorm,
          capRecCapped, baseRec]
      | norm_num [sumSelShares, finalizePass, finalizeRecord, sortRecords,
          List.mergeSort, splitLE, orZero, capRec, capRecSel, capRecNorm,
          capRecCapped, baseRec]
  refine ⟨h, ?_⟩
  rw [h]
  have habs : |(1 : ℚ) - 1 / 2| = 1 / 2 := by
    rw [show (1 : ℚ) - 1 / 2 = 1 / 2 by norm_num]
    exact abs_of_pos (by norm_num)
  rw [habs]
  norm_num

/-- The single channel of the witness run after the optimisation loop. -/
def flooredMid : ChannelData := { flooredRec with weightedRating := some 10, share := some 1 }

set_option maxHeartbeats 1000000 in
/-- The optimisation loop of the witness run stops after one pass. -/
theorem flooredMid_loop : optLoop briefR1 "Natural" none true 20 [flooredRec] =
    [flooredMid] := by
  repeat first
    | simp [optLoop, optPassChanged, optPassData, regionPass,
        selectedInRegion, assignRatings, updWR, weightedRatingFor, avgTcppOf,
        normalizeShares, normTotal, normFun, floorPass, floorFun,
        floorViolation, minShareOf, orZero, orOne, BriefData.regions,
        BriefData.find, briefR1, rbTa, flooredRec, flooredMid, baseRec]
    | norm_num [optLoop, optPassChanged, optPassData, regionPass,
        selectedInRegion, assignRatings, updWR, weightedRatingFor, avgTcppOf,
        normalizeShares, normTotal, normFun, floorPass, floorFun,
        floorViolation, minShareOf, orZero, orOne, BriefData.regions,
        BriefData.find, briefR1, rbTa, flooredRec, flooredMid, baseRec]

set_option maxHeartbeats 1000000 in
/-- One more pass leaves the witness run's loop output unchanged. -/
theorem flooredMid_fix : optPassData briefR1 "Natural" none true [flooredMid] =
    [flooredMid] := by
  repeat first
    | simp [optPassChanged, optPassData, regionPass,
        selectedInRegion, assignRatings, updWR, weightedRatingFor, avgTcppOf,
        normalizeShares, normTotal, normFun, floorPass, floorFun,
        floorViolation, minShareOf, orZero, orOne, BriefData.regions,
        BriefData.find, briefR1, rbTa, flooredRec, flooredMid, baseRec]
    | norm_num [optPassChanged, optPassData, regionPass,
        selectedInRegion, assignRatings, updWR, weightedRatingFor, avgTcppOf,
        normalizeShares, normTotal, normFun, floorPass, floorFun,
        floorViolation, minShareOf, orZero, orOne, BriefData.regions,
        BriefData.find, briefR1, rbTa, flooredRec, flooredMid, baseRec]

set_option maxHeartbeats 1000000 in
/-- The witness run's region has total weighted rating 10 after rating
assignment. -/
theorem flooredMid_total : (0 : ℚ) < normTotal "r1"
    (assignRatings "Natural" none "r1" [flooredMid]) := by
  repeat first
    | simp [assignRatings, updWR, weightedRatingFor, avgTcppOf,
        selectedInRegion, normTotal, orZero, orOne,
        briefR1, rbTa, flooredRec, flooredMid, baseRec]
    | norm_num [assignRatings, updWR, weightedRatingFor, avgTcppOf,
        selectedInRegion, normTotal, orZero, orOne,
        briefR1, rbTa, flooredRec, flooredMid, baseRec]

/-- C1 witness: the amended invariant applied to a concrete limit-enabled
run — one selected network channel, no orbital cap — whose regional sum is
0 or 1 (in fact 1). -/
theorem claim_C1_amended_witness :
    (("r1" : String) ∈ briefR1.regions ∧ briefR1.regions.Nodup ∧
      optPassData briefR1 "Natural" none true
        (optLoop briefR1 "Natural" none true 20 [flooredRec]) =
        optLoop briefR1 "Natural" none true 20 [flooredRec] ∧
      (0 : ℚ) < normTotal "r1" (assignRatings "Natural" none "r1"
        (optLoop briefR1 "Natural" none true 20 [flooredRec])) ∧
      capOf briefR1 "r1" = none) ∧
    (sumSelShares "r1" (optimizeSplit [flooredRec] briefR1 "Natural" true none)
        = 0 ∨
      sumSelShares "r1" (optimizeSplit [flooredRec] briefR1 "Natural" true none)
        = 1) := by
  have hmem : ("r1" : String) ∈ briefR1.regions := by
    simp [briefR1, BriefData.regions]
  have hnodup : briefR1.regions.Nodup := by
    simp [briefR1, BriefData.regions]
  have hfix : optPassData briefR1 "Natural" none true
      (optLoop briefR1 "Natural" none true 20 [flooredRec]) =
      optLoop briefR1 "Natural" none true 20 [flooredRec] := by
    rw [flooredMid_loop]
    exact flooredMid_fix
  have hpos0 : (0 : ℚ) < normTotal "r1" (assignRatings "Natural" none "r1"
      (optLoop briefR1 "Natural" none true 20 [flooredRec])) := by
    rw [flooredMid_loop]
    exact flooredMid_total
  have hcapn : capOf briefR1 "r1" = none := by
    simp [capOf, briefR1, BriefData.find, rbTa]
  have hcap : ∀ cap, capOf briefR1 "r1" = some cap → 0 ≤ cap ∧
      (cap / 100 < sumSelOrbital "r1"
        (optLoop briefR1 "Natural" none true 20 [flooredRec]) →
        0 < sumSelNetwork "r1"
          (optLoop briefR1 "Natural" none true 20 [flooredRec])) := by
    intro cap hc
    rw [hcapn] at hc
    cases hc
  exact ⟨⟨hmem, hnodup, hfix, hpos0, hcapn⟩,
    claim_C1_amended [flooredRec] briefR1 "Natural" true none "r1" hmem hnodup
      hfix (fun _ => hpos0) hcap⟩

end TVSplit
